import Mathlib

/-!
Hatch generator: a shallow embedding of `src/main.cpp`.

The program computes a hatch pattern (parallel line segments clipped to an
axis-aligned rectangle).  The embedding below follows `src/main.cpp` function by
function.

* Coordinates are elements of a linearly ordered field `K`; every definition is
  polymorphic in `K`, so it evaluates on `ℚ` and is reasoned about on `ℝ`
  ("arithmetic read as exact reals").
* `M_PI`, `tan` and `cos` come from `<cmath>`, which is not part of the
  repository; they are taken as a parameter `CMath K`.  The theorems instantiate
  it with `Real.pi`, `Real.tan`, `Real.cos`.
* Loops carry a fuel argument that bounds the number of executions of the loop
  body; `none` means that the fuel ran out (or that the point list was empty,
  where the source dereferences `begin()` of an empty vector).
* The member `hatch` of `HatchGenerator` is explicit state: `generateHatch`
  takes the engine and returns the returned vector together with the engine
  after the call.
* A second set of definitions (`generateHatchD` and its parts) follows the same
  source lines in binary64 arithmetic, each operation rounded; it is used where
  a statement that holds over the reals fails for the program in `double`.
-/

namespace Hatch

/-- Structure `Point_2` (main.cpp:20-27): a point of the plane. -/
structure Point_2 (K : Type) where
  x : K
  y : K
deriving DecidableEq, Repr

/-- Structure `Line_2` (main.cpp:34-41): the two end points of one hatch line. -/
structure Line_2 (K : Type) where
  firstPoint : Point_2 K
  secondPoint : Point_2 K
deriving DecidableEq, Repr

/-- The part of `<cmath>` used by the program: the constant `M_PI` and the
functions `tan` and `cos`. -/
structure CMath (K : Type) where
  pi : K
  tan : K → K
  cos : K → K

section Defs

variable {K : Type} [LinearOrderedField K]

/-- Function `findTopLeftCorner` (main.cpp:48-59): the running best starts at the
first point and is replaced by a point with strictly larger `y` and `x` not
larger than the running best. -/
def findTopLeftCorner : List (Point_2 K) → Option (Point_2 K)
  | [] => none
  | p :: rest =>
    some (rest.foldl
      (fun topLeftCorner it =>
        if it.y > topLeftCorner.y ∧ it.x ≤ topLeftCorner.x then it else topLeftCorner) p)

/-- Function `findBottomRightCorner` (main.cpp:66-77): the running best starts at
the first point and is replaced by a point with `y` not larger and `x` strictly
larger than the running best. -/
def findBottomRightCorner : List (Point_2 K) → Option (Point_2 K)
  | [] => none
  | p :: rest =>
    some (rest.foldl
      (fun bottomRightCorner it =>
        if it.y ≤ bottomRightCorner.y ∧ it.x > bottomRightCorner.x then it
        else bottomRightCorner) p)

/-- Function `degreesToRadians` (main.cpp:84-87). -/
def degreesToRadians (T : CMath K) (degrees : K) : K :=
  degrees * T.pi / 180

/-- The slope `k = tan(angelInRadians)` of main.cpp:158-159 and 192-193. -/
def slopeK (T : CMath K) (angel : K) : K :=
  T.tan (degreesToRadians T angel)

/-- The intercept step `stepY = step / cos(angelInRadians)` of main.cpp:162. -/
def stepYAcute (T : CMath K) (angel step : K) : K :=
  step / T.cos (degreesToRadians T angel)

/-- The intercept step `stepY = step / cos(degreesToRadians(180 - angel))` of
main.cpp:196. -/
def stepYObtuse (T : CMath K) (angel step : K) : K :=
  step / T.cos (degreesToRadians T (180 - angel))

/-- The line appended by one pass of the `angel == 90` loop (main.cpp:135-140)
at abscissa `X`. -/
def vertLine (topLeftCorner bottomRightCorner : Point_2 K) (X : K) : Line_2 K :=
  ⟨⟨X, topLeftCorner.y⟩, ⟨X, bottomRightCorner.y⟩⟩

/-- The line appended by one pass of the `angel == 0` loop (main.cpp:148-153) at
ordinate `Y`. -/
def horizLine (topLeftCorner bottomRightCorner : Point_2 K) (Y : K) : Line_2 K :=
  ⟨⟨topLeftCorner.x, Y⟩, ⟨bottomRightCorner.x, Y⟩⟩

/-- The `for` loop of main.cpp:132-141 (`angel == 90`): `Xi` runs from its start
value while `Xi < bottomRightCorner.x`, each pass appends one vertical line and
adds `step` to `Xi`. -/
def vertLoop (topLeftCorner bottomRightCorner : Point_2 K) (step : K) :
    Nat → K → List (Line_2 K) → Option (List (Line_2 K))
  | 0, Xi, hatch => if Xi < bottomRightCorner.x then none else some hatch
  | fuel + 1, Xi, hatch =>
    if Xi < bottomRightCorner.x then
      vertLoop topLeftCorner bottomRightCorner step fuel (Xi + step)
        (hatch ++ [⟨⟨Xi, topLeftCorner.y⟩, ⟨Xi, bottomRightCorner.y⟩⟩])
    else some hatch

/-- The `for` loop of main.cpp:145-154 (`angel == 0`): `Yi` runs from its start
value while `Yi < topLeftCorner.y`, each pass appends one horizontal line and
adds `step` to `Yi`. -/
def horizLoop (topLeftCorner bottomRightCorner : Point_2 K) (step : K) :
    Nat → K → List (Line_2 K) → Option (List (Line_2 K))
  | 0, Yi, hatch => if Yi < topLeftCorner.y then none else some hatch
  | fuel + 1, Yi, hatch =>
    if Yi < topLeftCorner.y then
      horizLoop topLeftCorner bottomRightCorner step fuel (Yi + step)
        (hatch ++ [⟨⟨topLeftCorner.x, Yi⟩, ⟨bottomRightCorner.x, Yi⟩⟩])
    else some hatch

/-- The body of the `while` loop of the acute branch after `b -= stepY`
(main.cpp:168-187), as a function of the decremented intercept `b`: `none` is a
`break`, `some l` is the line handed to `emplace_back`.  Both coordinates of
`firstPoint` and of `secondPoint` are assigned before they are read, so the
values left by an earlier pass play no role. -/
def acuteClip (topLeftCorner bottomRightCorner : Point_2 K) (k b : K) : Option (Line_2 K) :=
  let firstPoint : Point_2 K := ⟨(topLeftCorner.y - b) / k, topLeftCorner.y⟩
  let first : Option (Point_2 K) :=
    if firstPoint.x > bottomRightCorner.x then
      let firstPoint : Point_2 K := ⟨bottomRightCorner.x, k * bottomRightCorner.x + b⟩
      if firstPoint.y < bottomRightCorner.y then none else some firstPoint
    else some firstPoint
  match first with
  | none => none
  | some firstPoint =>
    let secondPoint : Point_2 K := ⟨topLeftCorner.x, k * topLeftCorner.x + b⟩
    if secondPoint.y < bottomRightCorner.y then
      let secondPoint : Point_2 K := ⟨(bottomRightCorner.y - b) / k, bottomRightCorner.y⟩
      if secondPoint.x > bottomRightCorner.x then none
      else some ⟨firstPoint, secondPoint⟩
    else some ⟨firstPoint, secondPoint⟩

/-- The body of the `while` loop of the obtuse branch after `b -= stepY`
(main.cpp:202-221), as a function of the decremented intercept `b`: `none` is a
`break`, `some l` is the line handed to `emplace_back`. -/
def obtuseClip (topLeftCorner bottomRightCorner : Point_2 K) (k b : K) : Option (Line_2 K) :=
  let firstPoint : Point_2 K := ⟨(topLeftCorner.y - b) / k, topLeftCorner.y⟩
  let first : Option (Point_2 K) :=
    if firstPoint.x < topLeftCorner.x then
      let firstPoint : Point_2 K := ⟨topLeftCorner.x, k * topLeftCorner.x + b⟩
      if firstPoint.y < bottomRightCorner.y then none else some firstPoint
    else some firstPoint
  match first with
  | none => none
  | some firstPoint =>
    let secondPoint : Point_2 K := ⟨bottomRightCorner.x, k * bottomRightCorner.x + b⟩
    if secondPoint.y < bottomRightCorner.y then
      let secondPoint : Point_2 K := ⟨(bottomRightCorner.y - b) / k, bottomRightCorner.y⟩
      if secondPoint.x < topLeftCorner.x then none
      else some ⟨firstPoint, secondPoint⟩
    else some ⟨firstPoint, secondPoint⟩

/-- The `while (b > maxB)` loop shared by the acute branch (main.cpp:165-188) and
the obtuse branch (main.cpp:199-222); the two differ only in the clipping done
by the body, passed as `clip`.  Each pass first subtracts `stepY` from `b`; a
`break` leaves the loop with the lines collected so far.  The fuel bounds the
number of passes. -/
def sweepLoop (clip : K → Option (Line_2 K)) (stepY maxB : K) :
    Nat → K → List (Line_2 K) → Option (List (Line_2 K))
  | 0, b, hatch => if b > maxB then none else some hatch
  | fuel + 1, b, hatch =>
    if b > maxB then
      match clip (b - stepY) with
      | none => some hatch
      | some l => sweepLoop clip stepY maxB fuel (b - stepY) (hatch ++ [l])
    else some hatch

/-- The branches of `generateHatch` (main.cpp:129-223) once the two corners are
known: the value of the member `hatch` when the function returns. -/
def hatchLines (T : CMath K) (fuel : Nat) (hatch : List (Line_2 K))
    (topLeftCorner bottomRightCorner : Point_2 K) (angel step : K) :
    Option (List (Line_2 K)) :=
  if angel = 90 then
    vertLoop topLeftCorner bottomRightCorner step fuel (topLeftCorner.x + step) hatch
  else if angel = 0 then
    horizLoop topLeftCorner bottomRightCorner step fuel (bottomRightCorner.y + step) hatch
  else if angel > 0 ∧ angel < 90 then
    let k := slopeK T angel
    let stepY := stepYAcute T angel step
    let b := topLeftCorner.y - k * topLeftCorner.x
    let maxB := bottomRightCorner.y - k * bottomRightCorner.x
    sweepLoop (acuteClip topLeftCorner bottomRightCorner k) stepY maxB fuel b hatch
  else if angel > 90 ∧ angel < 180 then
    let k := slopeK T angel
    let stepY := stepYObtuse T angel step
    let b := topLeftCorner.y - k * bottomRightCorner.x
    let maxB := bottomRightCorner.y - k * topLeftCorner.x
    sweepLoop (obtuseClip topLeftCorner bottomRightCorner k) stepY maxB fuel b hatch
  else some hatch

/-- Class `HatchGenerator` (main.cpp:96-226): its only member is the vector
`hatch`. -/
structure HatchGenerator (K : Type) where
  hatch : List (Line_2 K)

/-- The default constructor (main.cpp:102): an engine with an empty `hatch`. -/
def HatchGenerator.fresh : HatchGenerator K := ⟨[]⟩

/-- Method `HatchGenerator::generateHatch` (main.cpp:123-225): the returned vector
(a copy of the member `hatch`) and the engine after the call. -/
def HatchGenerator.generateHatch (T : CMath K) (fuel : Nat) (self : HatchGenerator K)
    (inContoursPoints : List (Point_2 K)) (angel step : K) :
    Option (List (Line_2 K) × HatchGenerator K) :=
  match findTopLeftCorner inContoursPoints, findBottomRightCorner inContoursPoints with
  | some topLeftCorner, some bottomRightCorner =>
    match hatchLines T fuel self.hatch topLeftCorner bottomRightCorner angel step with
    | some hatch => some (hatch, ⟨hatch⟩)
    | none => none
  | _, _ => none

/-- The contour used by `main` (main.cpp:231-232). -/
def contoursPoints : List (Point_2 K) :=
  [⟨0, 0⟩, ⟨10, 0⟩, ⟨10, 10⟩, ⟨0, 10⟩]

/-- Reflection of a point across the vertical centre line of the rectangle:
`x ↦ topLeftCorner.x + bottomRightCorner.x - x`. -/
def mirrorPoint (topLeftCorner bottomRightCorner : Point_2 K) (p : Point_2 K) : Point_2 K :=
  ⟨topLeftCorner.x + bottomRightCorner.x - p.x, p.y⟩

/-- Reflection of a line, end point by end point. -/
def mirrorLine (topLeftCorner bottomRightCorner : Point_2 K) (l : Line_2 K) : Line_2 K :=
  ⟨mirrorPoint topLeftCorner bottomRightCorner l.firstPoint,
   mirrorPoint topLeftCorner bottomRightCorner l.secondPoint⟩

/-- A point lies in the closed rectangle spanned by the two corners. -/
def inRect (topLeftCorner bottomRightCorner : Point_2 K) (p : Point_2 K) : Prop :=
  topLeftCorner.x ≤ p.x ∧ p.x ≤ bottomRightCorner.x ∧
    bottomRightCorner.y ≤ p.y ∧ p.y ≤ topLeftCorner.y

/-- A point lies on the line `y = k * x + b`. -/
def onLine (k b : K) (p : Point_2 K) : Prop :=
  p.y = k * p.x + b

end Defs

/-! ## The program in binary64 arithmetic

The definitions above read the arithmetic of the program over an exact field.
The program itself computes in `double`.  The definitions of this section follow
the same source lines with every arithmetic operation rounded to binary64
(round to nearest, ties to even, 53-bit significand), on rationals; overflow,
subnormal numbers and NaN are not modelled, they do not occur in the runs
considered.  Comparisons are exact, as in the hardware. -/

section Binary64

/-- Scaling of a positive rational `m` by powers of two into `[2^52, 2^53)`; the
second component is the scale `s`, with `m * s` kept equal to the start value.
The fuel bounds the number of scalings. -/
def scaleToSignificand : Nat → ℚ → ℚ → ℚ × ℚ
  | 0, m, s => (m, s)
  | fuel + 1, m, s =>
    if m ≥ 9007199254740992 then scaleToSignificand fuel (m / 2) (s * 2)
    else if m < 4503599627370496 then scaleToSignificand fuel (m * 2) (s / 2)
    else (m, s)

/-- Rounding of a rational to the nearest binary64 number, ties to even: the
magnitude is scaled to a significand in `[2^52, 2^53)`, the significand is
rounded to the nearest integer (to the even one on a tie) and scaled back. -/
def roundDouble (q : ℚ) : ℚ :=
  if q = 0 then 0
  else
    let ms := scaleToSignificand 2200 (if q < 0 then -q else q) 1
    let f : ℤ := Rat.floor ms.1
    let r : ℤ :=
      if ms.1 - f < 1 / 2 then f
      else if ms.1 - f > 1 / 2 then f + 1
      else if f % 2 = 0 then f else f + 1
    (if q < 0 then -1 else 1) * (r : ℚ) * ms.2

/-- Addition of two `double` values. -/
def dAdd (a b : ℚ) : ℚ := roundDouble (a + b)

/-- Subtraction of two `double` values. -/
def dSub (a b : ℚ) : ℚ := roundDouble (a - b)

/-- Multiplication of two `double` values. -/
def dMul (a b : ℚ) : ℚ := roundDouble (a * b)

/-- Division of two `double` values. -/
def dDiv (a b : ℚ) : ℚ := roundDouble (a / b)

/-- Function `degreesToRadians` (main.cpp:84-87) in binary64:
`degrees * M_PI / 180`, evaluated left to right. -/
def degreesToRadiansD (T : CMath ℚ) (degrees : ℚ) : ℚ :=
  dDiv (dMul degrees T.pi) 180

/-- The body of the acute `while` loop after `b -= stepY` (main.cpp:168-187) in
binary64; `none` is a `break`. -/
def acuteClipD (topLeftCorner bottomRightCorner : Point_2 ℚ) (k b : ℚ) : Option (Line_2 ℚ) :=
  let firstPoint : Point_2 ℚ := ⟨dDiv (dSub topLeftCorner.y b) k, topLeftCorner.y⟩
  let first : Option (Point_2 ℚ) :=
    if firstPoint.x > bottomRightCorner.x then
      let firstPoint : Point_2 ℚ :=
        ⟨bottomRightCorner.x, dAdd (dMul k bottomRightCorner.x) b⟩
      if firstPoint.y < bottomRightCorner.y then none else some firstPoint
    else some firstPoint
  match first with
  | none => none
  | some firstPoint =>
    let secondPoint : Point_2 ℚ := ⟨topLeftCorner.x, dAdd (dMul k topLeftCorner.x) b⟩
    if secondPoint.y < bottomRightCorner.y then
      let secondPoint : Point_2 ℚ :=
        ⟨dDiv (dSub bottomRightCorner.y b) k, bottomRightCorner.y⟩
      if secondPoint.x > bottomRightCorner.x then none
      else some ⟨firstPoint, secondPoint⟩
    else some ⟨firstPoint, secondPoint⟩

/-- The body of the obtuse `while` loop after `b -= stepY` (main.cpp:202-221) in
binary64; `none` is a `break`. -/
def obtuseClipD (topLeftCorner bottomRightCorner : Point_2 ℚ) (k b : ℚ) : Option (Line_2 ℚ) :=
  let firstPoint : Point_2 ℚ := ⟨dDiv (dSub topLeftCorner.y b) k, topLeftCorner.y⟩
  let first : Option (Point_2 ℚ) :=
    if firstPoint.x < topLeftCorner.x then
      let firstPoint : Point_2 ℚ := ⟨topLeftCorner.x, dAdd (dMul k topLeftCorner.x) b⟩
      if firstPoint.y < bottomRightCorner.y then none else some firstPoint
    else some firstPoint
  match first with
  | none => none
  | some firstPoint =>
    let secondPoint : Point_2 ℚ :=
      ⟨bottomRightCorner.x, dAdd (dMul k bottomRightCorner.x) b⟩
    if secondPoint.y < bottomRightCorner.y then
      let secondPoint : Point_2 ℚ :=
        ⟨dDiv (dSub bottomRightCorner.y b) k, bottomRightCorner.y⟩
      if secondPoint.x < topLeftCorner.x then none
      else some ⟨firstPoint, secondPoint⟩
    else some ⟨firstPoint, secondPoint⟩

/-- The outcome of a call in the binary64 model: the call returned with the
member `hatch` as given; or the fuel was used up while a loop was still running,
the member `hatch` being as given at that moment; or the point list was empty. -/
inductive Outcome where
  | returned (hatch : List (Line_2 ℚ))
  | running (hatch : List (Line_2 ℚ))
  | emptyInput
deriving DecidableEq

/-- The `for` loop of main.cpp:132-141 in binary64 (`Xi += step` rounded). -/
def vertLoopD (topLeftCorner bottomRightCorner : Point_2 ℚ) (step : ℚ) :
    Nat → ℚ → List (Line_2 ℚ) → Outcome
  | 0, Xi, hatch => if Xi < bottomRightCorner.x then .running hatch else .returned hatch
  | fuel + 1, Xi, hatch =>
    if Xi < bottomRightCorner.x then
      vertLoopD topLeftCorner bottomRightCorner step fuel (dAdd Xi step)
        (hatch ++ [⟨⟨Xi, topLeftCorner.y⟩, ⟨Xi, bottomRightCorner.y⟩⟩])
    else .returned hatch

/-- The `for` loop of main.cpp:145-154 in binary64 (`Yi += step` rounded). -/
def horizLoopD (topLeftCorner bottomRightCorner : Point_2 ℚ) (step : ℚ) :
    Nat → ℚ → List (Line_2 ℚ) → Outcome
  | 0, Yi, hatch => if Yi < topLeftCorner.y then .running hatch else .returned hatch
  | fuel + 1, Yi, hatch =>
    if Yi < topLeftCorner.y then
      horizLoopD topLeftCorner bottomRightCorner step fuel (dAdd Yi step)
        (hatch ++ [⟨⟨topLeftCorner.x, Yi⟩, ⟨bottomRightCorner.x, Yi⟩⟩])
    else .returned hatch

/-- The `while (b > maxB)` loop of main.cpp:165-188 and 199-222 in binary64
(`b -= stepY` rounded); the fuel bounds the number of passes of the body. -/
def sweepLoopD (clip : ℚ → Option (Line_2 ℚ)) (stepY maxB : ℚ) :
    Nat → ℚ → List (Line_2 ℚ) → Outcome
  | 0, b, hatch => if b > maxB then .running hatch else .returned hatch
  | fuel + 1, b, hatch =>
    if b > maxB then
      match clip (dSub b stepY) with
      | none => .returned hatch
      | some l => sweepLoopD clip stepY maxB fuel (dSub b stepY) (hatch ++ [l])
    else .returned hatch

/-- Method `HatchGenerator::generateHatch` (main.cpp:123-225) in binary64, on an
engine whose member is `hatch`. -/
def generateHatchD (T : CMath ℚ) (fuel : Nat) (hatch : List (Line_2 ℚ))
    (inContoursPoints : List (Point_2 ℚ)) (angel step : ℚ) : Outcome :=
  match findTopLeftCorner inContoursPoints, findBottomRightCorner inContoursPoints with
  | some topLeftCorner, some bottomRightCorner =>
    if angel = 90 then
      vertLoopD topLeftCorner bottomRightCorner step fuel (dAdd topLeftCorner.x step) hatch
    else if angel = 0 then
      horizLoopD topLeftCorner bottomRightCorner step fuel (dAdd bottomRightCorner.y step) hatch
    else if angel > 0 ∧ angel < 90 then
      let angelInRadians := degreesToRadiansD T angel
      let k := T.tan angelInRadians
      let stepY := dDiv step (T.cos angelInRadians)
      let b := dSub topLeftCorner.y (dMul k topLeftCorner.x)
      let maxB := dSub bottomRightCorner.y (dMul k bottomRightCorner.x)
      sweepLoopD (acuteClipD topLeftCorner bottomRightCorner k) stepY maxB fuel b hatch
    else if angel > 90 ∧ angel < 180 then
      let angelInRadians := degreesToRadiansD T angel
      let k := T.tan angelInRadians
      let stepY := dDiv step (T.cos (degreesToRadiansD T (dSub 180 angel)))
      let b := dSub topLeftCorner.y (dMul k bottomRightCorner.x)
      let maxB := dSub bottomRightCorner.y (dMul k topLeftCorner.x)
      sweepLoopD (obtuseClipD topLeftCorner bottomRightCorner k) stepY maxB fuel b hatch
    else .returned hatch
  | _, _ => .emptyInput

/-- The part of `<cmath>` needed at 45 degrees, in binary64: `M_PI` is
`0x1.921fb54442d18p+1`; at the argument `45 * M_PI / 180 = 0x1.921fb54442d18p-1`
the tangent is `0x1.fffffffffffffp-1` and the cosine is `0x1.6a09e667f3bcdp-1`,
the binary64 numbers nearest to the true values.  No other argument is used. -/
def libm45 : CMath ℚ where
  pi := 884279719003555 / 281474976710656
  tan := fun x =>
    if x = 884279719003555 / 1125899906842624 then 9007199254740991 / 9007199254740992 else 0
  cos := fun x =>
    if x = 884279719003555 / 1125899906842624 then 6369051672525773 / 9007199254740992 else 0

end Binary64

/-! ## The corner scans -/

section Corners

variable {K : Type} [LinearOrderedField K]

theorem foldl_topLeft_bounds (rest : List (Point_2 K)) (p : Point_2 K) :
    (rest.foldl (fun topLeftCorner it =>
        if it.y > topLeftCorner.y ∧ it.x ≤ topLeftCorner.x then it else topLeftCorner) p).x ≤ p.x ∧
    p.y ≤ (rest.foldl (fun topLeftCorner it =>
        if it.y > topLeftCorner.y ∧ it.x ≤ topLeftCorner.x then it else topLeftCorner) p).y := by
  induction rest generalizing p with
  | nil => simp
  | cons q rest ih =>
    simp only [List.foldl_cons]
    split_ifs with h
    · obtain ⟨h1, h2⟩ := ih q
      exact ⟨le_trans h1 h.2, le_trans (le_of_lt h.1) h2⟩
    · exact ih p

theorem foldl_bottomRight_bounds (rest : List (Point_2 K)) (p : Point_2 K) :
    p.x ≤ (rest.foldl (fun bottomRightCorner it =>
        if it.y ≤ bottomRightCorner.y ∧ it.x > bottomRightCorner.x then it
        else bottomRightCorner) p).x ∧
    (rest.foldl (fun bottomRightCorner it =>
        if it.y ≤ bottomRightCorner.y ∧ it.x > bottomRightCorner.x then it
        else bottomRightCorner) p).y ≤ p.y := by
  induction rest generalizing p with
  | nil => simp
  | cons q rest ih =>
    simp only [List.foldl_cons]
    split_ifs with h
    · obtain ⟨h1, h2⟩ := ih q
      exact ⟨le_trans (le_of_lt h.2) h1, le_trans h2 h.1⟩
    · exact ih p

/-- Both corner scans return a point on a non-empty list. -/
theorem corners_exist (pts : List (Point_2 K)) (hne : pts ≠ []) :
    ∃ TL BR, findTopLeftCorner pts = some TL ∧ findBottomRightCorner pts = some BR := by
  cases pts with
  | nil => exact absurd rfl hne
  | cons p rest => exact ⟨_, _, rfl, rfl⟩

/-- The corners returned by the scans are ordered: the top-left corner is not to
the right of and not below the bottom-right corner. -/
theorem corners_ordered {pts : List (Point_2 K)} {TL BR : Point_2 K}
    (hTL : findTopLeftCorner pts = some TL) (hBR : findBottomRightCorner pts = some BR) :
    TL.x ≤ BR.x ∧ BR.y ≤ TL.y := by
  cases pts with
  | nil => simp [findTopLeftCorner] at hTL
  | cons p rest =>
    simp only [findTopLeftCorner, findBottomRightCorner, Option.some.injEq] at hTL hBR
    subst hTL hBR
    obtain ⟨h1, h2⟩ := foldl_topLeft_bounds rest p
    obtain ⟨h3, h4⟩ := foldl_bottomRight_bounds rest p
    exact ⟨le_trans h1 h3, le_trans h4 h2⟩

end Corners

/-! ## The two axis-parallel loops -/

section AxisLoops

variable {K : Type} [LinearOrderedField K]

theorem vertLoop_closed (TL BR : Point_2 K) (step : K) :
    ∀ (n fuel : Nat) (Xi : K) (hatch : List (Line_2 K)), n ≤ fuel →
      (∀ i : Nat, i < n → Xi + i * step < BR.x) → ¬ (Xi + n * step < BR.x) →
      vertLoop TL BR step fuel Xi hatch
        = some (hatch ++ (List.range n).map (fun i : Nat => vertLine TL BR (Xi + i * step))) := by
  intro n
  induction n with
  | zero =>
    intro fuel Xi hatch _ _ hstop
    have hstop' : ¬ (Xi < BR.x) := by simpa using hstop
    cases fuel <;> simp [vertLoop, hstop']
  | succ n ih =>
    intro fuel Xi hatch hfuel hlt hstop
    obtain ⟨f, rfl⟩ : ∃ f, fuel = f + 1 := ⟨fuel - 1, by omega⟩
    have h0 : Xi < BR.x := by simpa using hlt 0 (Nat.succ_pos n)
    have hrec := ih f (Xi + step) (hatch ++ [vertLine TL BR Xi]) (by omega)
      (fun i hi => by
        have := hlt (i + 1) (by omega)
        push_cast at this
        linarith)
      (fun h => hstop (by push_cast; linarith))
    simp only [vertLoop, h0, if_true]
    rw [show (⟨⟨Xi, TL.y⟩, ⟨Xi, BR.y⟩⟩ : Line_2 K) = vertLine TL BR Xi from rfl, hrec,
      List.range_succ_eq_map, List.map_cons, List.map_map, List.append_assoc]
    have hmap : List.map ((fun i : Nat => vertLine TL BR (Xi + i * step)) ∘ Nat.succ) (List.range n)
        = List.map (fun i : Nat => vertLine TL BR (Xi + step + i * step)) (List.range n) := by
      apply List.map_congr_left
      intro i _
      simp only [Function.comp, Nat.succ_eq_add_one]
      congr 1
      push_cast
      ring
    rw [hmap]
    simp

theorem horizLoop_closed (TL BR : Point_2 K) (step : K) :
    ∀ (n fuel : Nat) (Yi : K) (hatch : List (Line_2 K)), n ≤ fuel →
      (∀ i : Nat, i < n → Yi + i * step < TL.y) → ¬ (Yi + n * step < TL.y) →
      horizLoop TL BR step fuel Yi hatch
        = some (hatch ++ (List.range n).map (fun i : Nat => horizLine TL BR (Yi + i * step))) := by
  intro n
  induction n with
  | zero =>
    intro fuel Yi hatch _ _ hstop
    have hstop' : ¬ (Yi < TL.y) := by simpa using hstop
    cases fuel <;> simp [horizLoop, hstop']
  | succ n ih =>
    intro fuel Yi hatch hfuel hlt hstop
    obtain ⟨f, rfl⟩ : ∃ f, fuel = f + 1 := ⟨fuel - 1, by omega⟩
    have h0 : Yi < TL.y := by simpa using hlt 0 (Nat.succ_pos n)
    have hrec := ih f (Yi + step) (hatch ++ [horizLine TL BR Yi]) (by omega)
      (fun i hi => by
        have := hlt (i + 1) (by omega)
        push_cast at this
        linarith)
      (fun h => hstop (by push_cast; linarith))
    simp only [horizLoop, h0, if_true]
    rw [show (⟨⟨TL.x, Yi⟩, ⟨BR.x, Yi⟩⟩ : Line_2 K) = horizLine TL BR Yi from rfl, hrec,
      List.range_succ_eq_map, List.map_cons, List.map_map, List.append_assoc]
    have hmap : List.map ((fun i : Nat => horizLine TL BR (Yi + i * step)) ∘ Nat.succ) (List.range n)
        = List.map (fun i : Nat => horizLine TL BR (Yi + step + i * step)) (List.range n) := by
      apply List.map_congr_left
      intro i _
      simp only [Function.comp, Nat.succ_eq_add_one]
      congr 1
      push_cast
      ring
    rw [hmap]
    simp

/-- For a positive step the positive multiples of the step below a bound are an
initial segment `1..n`. -/
theorem exists_count_below {K : Type} [LinearOrderedField K] [Archimedean K]
    (a s c : K) (hs : 0 < s) :
    ∃ n : Nat, (∀ i : Nat, 0 < i → (a + i * s < c ↔ i ≤ n)) := by
  classical
  have hex : ∃ m : Nat, ¬ (a + (m + 1 : Nat) * s < c) := by
    obtain ⟨m, hm⟩ := Archimedean.arch (c - a) hs
    refine ⟨m, ?_⟩
    rw [nsmul_eq_mul] at hm
    push_cast
    nlinarith
  refine ⟨Nat.find hex, fun i hi => ⟨fun h => ?_, fun h => ?_⟩⟩
  · by_contra hcon
    have hlt : Nat.find hex < i := by omega
    have hstop := Nat.find_spec hex
    apply hstop
    have hle : ((Nat.find hex + 1 : Nat) : K) ≤ (i : K) := by exact_mod_cast hlt
    have : ((Nat.find hex + 1 : Nat) : K) * s ≤ (i : K) * s :=
      mul_le_mul_of_nonneg_right hle (le_of_lt hs)
    linarith
  · obtain ⟨j, rfl⟩ : ∃ j, i = j + 1 := ⟨i - 1, by omega⟩
    have hj : j < Nat.find hex := by omega
    have := Nat.find_min hex hj
    simpa using this

/-- The `angel == 90` branch for a positive step: the loop stops, and the result
is the list of vertical lines at `TL.x + i * step`, `i = 1..n`. -/
theorem hatchLines_vertical {K : Type} [LinearOrderedField K] [Archimedean K]
    (T : CMath K) (hatch : List (Line_2 K)) (TL BR : Point_2 K) (s : K) (hs : 0 < s) :
    ∃ n : Nat, (∀ i : Nat, 0 < i → (TL.x + i * s < BR.x ↔ i ≤ n)) ∧
      ∀ fuel, n ≤ fuel →
        hatchLines T fuel hatch TL BR 90 s
          = some (hatch ++ (List.range n).map
              (fun i : Nat => vertLine TL BR (TL.x + (i + 1 : Nat) * s))) := by
  obtain ⟨n, hn⟩ := exists_count_below TL.x s BR.x hs
  refine ⟨n, hn, fun fuel hfuel => ?_⟩
  have h := vertLoop_closed TL BR s n fuel (TL.x + s) hatch hfuel
    (fun i hi => by
      have := (hn (i + 1) (Nat.succ_pos i)).2 (by omega)
      push_cast at this
      linarith)
    (fun hlt => by
      have := (hn (n + 1) (Nat.succ_pos n)).1 (by push_cast; linarith)
      omega)
  simp only [hatchLines, if_true]
  rw [h]
  congr 2
  apply List.map_congr_left
  intro i _
  congr 1
  push_cast
  ring

/-- The `angel == 0` branch for a positive step: the loop stops, and the result
is the list of horizontal lines at `BR.y + i * step`, `i = 1..n`. -/
theorem hatchLines_horizontal {K : Type} [LinearOrderedField K] [Archimedean K]
    (T : CMath K) (hatch : List (Line_2 K)) (TL BR : Point_2 K) (s : K) (hs : 0 < s) :
    ∃ n : Nat, (∀ i : Nat, 0 < i → (BR.y + i * s < TL.y ↔ i ≤ n)) ∧
      ∀ fuel, n ≤ fuel →
        hatchLines T fuel hatch TL BR 0 s
          = some (hatch ++ (List.range n).map
              (fun i : Nat => horizLine TL BR (BR.y + (i + 1 : Nat) * s))) := by
  obtain ⟨n, hn⟩ := exists_count_below BR.y s TL.y hs
  refine ⟨n, hn, fun fuel hfuel => ?_⟩
  have h := horizLoop_closed TL BR s n fuel (BR.y + s) hatch hfuel
    (fun i hi => by
      have := (hn (i + 1) (Nat.succ_pos i)).2 (by omega)
      push_cast at this
      linarith)
    (fun hlt => by
      have := (hn (n + 1) (Nat.succ_pos n)).1 (by push_cast; linarith)
      omega)
  have h90 : ¬ ((0 : K) = 90) := by norm_num
  simp only [hatchLines, h90, if_false, if_true]
  rw [h]
  congr 2
  apply List.map_congr_left
  intro i _
  congr 1
  push_cast
  ring

end AxisLoops

/-! ## The diagonal sweep loop -/

section Sweep

variable {K : Type} [LinearOrderedField K]

/-- The loop only appends: running it on an accumulator `h` gives `h` followed by
what it gives on the empty accumulator. -/
theorem sweepLoop_append (clip : K → Option (Line_2 K)) (stepY maxB : K) :
    ∀ (fuel : Nat) (b : K) (h : List (Line_2 K)),
      sweepLoop clip stepY maxB fuel b h
        = (sweepLoop clip stepY maxB fuel b []).map (fun L => h ++ L) := by
  intro fuel
  induction fuel with
  | zero =>
    intro b h
    by_cases hb : b > maxB <;> simp [sweepLoop, hb]
  | succ fuel ih =>
    intro b h
    by_cases hb : b > maxB
    · cases hc : clip (b - stepY) with
      | none => simp [sweepLoop, hb, hc]
      | some l =>
        simp only [sweepLoop, hb, hc, if_true, List.nil_append]
        rw [ih (b - stepY) (h ++ [l]), ih (b - stepY) [l], Option.map_map]
        congr 1
        funext L
        simp
    · simp [sweepLoop, hb]

/-- The loop stops within `n` passes as soon as `b - n * stepY ≤ maxB`. -/
theorem sweepLoop_isSome (clip : K → Option (Line_2 K)) (stepY maxB : K) :
    ∀ (n : Nat) (b : K) (h : List (Line_2 K)), b - n * stepY ≤ maxB →
      (sweepLoop clip stepY maxB n b h).isSome = true := by
  intro n
  induction n with
  | zero =>
    intro b h hle
    have hb : ¬ (b > maxB) := by simpa using hle
    simp [sweepLoop, hb]
  | succ n ih =>
    intro b h hle
    by_cases hb : b > maxB
    · cases hc : clip (b - stepY) with
      | none => simp [sweepLoop, hb, hc]
      | some l =>
        simp only [sweepLoop, hb, hc, if_true]
        apply ih
        push_cast at hle
        linarith
    · simp [sweepLoop, hb]

/-- More fuel does not change a result. -/
theorem sweepLoop_mono (clip : K → Option (Line_2 K)) (stepY maxB : K) :
    ∀ (fuel : Nat) (b : K) (h L : List (Line_2 K)),
      sweepLoop clip stepY maxB fuel b h = some L →
      ∀ fuel2, fuel ≤ fuel2 → sweepLoop clip stepY maxB fuel2 b h = some L := by
  intro fuel
  induction fuel with
  | zero =>
    intro b h L hrun fuel2 _
    by_cases hb : b > maxB
    · simp [sweepLoop, hb] at hrun
    · cases fuel2 <;> simpa [sweepLoop, hb] using hrun
  | succ fuel ih =>
    intro b h L hrun fuel2 hle
    obtain ⟨f2, rfl⟩ : ∃ f2, fuel2 = f2 + 1 := ⟨fuel2 - 1, by omega⟩
    by_cases hb : b > maxB
    · cases hc : clip (b - stepY) with
      | none => simpa [sweepLoop, hb, hc] using hrun
      | some l =>
        simp only [sweepLoop, hb, hc, if_true] at hrun ⊢
        exact ih _ _ _ hrun f2 (by omega)
    · simpa [sweepLoop, hb] using hrun

/-- What a finished run of the loop looks like: the accumulator followed by the
lines of passes `1..n`, pass `i` clipping the line of intercept `b - i * stepY`;
every pass started with an intercept above `maxB`, and the loop ended either on
its test or on a `break` in pass `n + 1`. -/
theorem sweepLoop_spec (clip : K → Option (Line_2 K)) (stepY maxB : K) :
    ∀ (fuel : Nat) (b : K) (h L : List (Line_2 K)),
      sweepLoop clip stepY maxB fuel b h = some L →
      ∃ L2 : List (Line_2 K), L = h ++ L2 ∧
        (∀ i : Nat, i < L2.length →
          b - i * stepY > maxB ∧ clip (b - (i + 1 : Nat) * stepY) = L2[i]?) ∧
        ((b - L2.length * stepY ≤ maxB ∧ L2.length ≤ fuel) ∨
          (b - L2.length * stepY > maxB ∧
            clip (b - (L2.length + 1 : Nat) * stepY) = none ∧ L2.length + 1 ≤ fuel)) := by
  intro fuel
  induction fuel with
  | zero =>
    intro b h L hrun
    by_cases hb : b > maxB
    · simp [sweepLoop, hb] at hrun
    · simp only [sweepLoop, hb, if_false, Option.some.injEq] at hrun
      refine ⟨[], by simp [hrun], by simp, Or.inl ?_⟩
      simpa using hb
  | succ fuel ih =>
    intro b h L hrun
    by_cases hb : b > maxB
    · cases hc : clip (b - stepY) with
      | none =>
        simp only [sweepLoop, hb, hc, if_true, Option.some.injEq] at hrun
        refine ⟨[], by simp [hrun], by simp, Or.inr ?_⟩
        simpa [hc] using hb
      | some l =>
        simp only [sweepLoop, hb, hc, if_true] at hrun
        obtain ⟨L2, hL, hpass, hend⟩ := ih _ _ _ hrun
        refine ⟨l :: L2, by simp [hL], ?_, ?_⟩
        · intro i hi
          cases i with
          | zero => simpa [hc] using hb
          | succ i =>
            have hi2 : i < L2.length := by simpa using hi
            obtain ⟨h1, h2⟩ := hpass i hi2
            have e1 : b - ((i + 1 : Nat) : K) * stepY = b - stepY - (i : K) * stepY := by
              push_cast; ring
            have e2 : b - ((i + 1 + 1 : Nat) : K) * stepY
                = b - stepY - ((i + 1 : Nat) : K) * stepY := by
              push_cast; ring
            rw [e1, e2]
            exact ⟨h1, by simpa using h2⟩
        · have e1 : b - (((l :: L2).length : Nat) : K) * stepY
              = b - stepY - (L2.length : K) * stepY := by
            simp only [List.length_cons]; push_cast; ring
          have e2 : b - (((l :: L2).length + 1 : Nat) : K) * stepY
              = b - stepY - ((L2.length + 1 : Nat) : K) * stepY := by
            simp only [List.length_cons]; push_cast; ring
          rw [e1, e2]
          rcases hend with ⟨h1, h2⟩ | ⟨h1, h2, h3⟩
          · exact Or.inl ⟨h1, by simp only [List.length_cons]; omega⟩
          · exact Or.inr ⟨h1, h2, by simp only [List.length_cons]; omega⟩
    · simp only [sweepLoop, hb, if_false, Option.some.injEq] at hrun
      refine ⟨[], by simp [hrun], by simp, Or.inl ?_⟩
      refine ⟨by simpa using hb, by simp⟩

/-- The converse of `sweepLoop_spec`: if passes `1..n` start above `maxB` and
clip to `f 0, ..., f (n-1)`, and the loop then ends on its test or on a `break`,
the run returns the accumulator followed by these lines. -/
theorem sweepLoop_closed (clip : K → Option (Line_2 K)) (stepY maxB : K) :
    ∀ (n fuel : Nat) (b : K) (h : List (Line_2 K)) (f : Nat → Line_2 K),
      (∀ i : Nat, i < n →
        b - i * stepY > maxB ∧ clip (b - (i + 1 : Nat) * stepY) = some (f i)) →
      ((b - n * stepY ≤ maxB ∧ n ≤ fuel) ∨
        (b - n * stepY > maxB ∧ clip (b - (n + 1 : Nat) * stepY) = none ∧ n + 1 ≤ fuel)) →
      sweepLoop clip stepY maxB fuel b h = some (h ++ (List.range n).map f) := by
  intro n
  induction n with
  | zero =>
    intro fuel b h f _ hend
    rcases hend with ⟨h1, _⟩ | ⟨h1, h2, h3⟩
    · have hb : ¬ (b > maxB) := by simpa using h1
      cases fuel <;> simp [sweepLoop, hb]
    · obtain ⟨f2, rfl⟩ : ∃ f2, fuel = f2 + 1 := ⟨fuel - 1, by omega⟩
      have hb : b > maxB := by simpa using h1
      have hc : clip (b - stepY) = none := by simpa using h2
      simp [sweepLoop, hb, hc]
  | succ n ih =>
    intro fuel b h f hpass hend
    obtain ⟨f2, rfl⟩ : ∃ f2, fuel = f2 + 1 := by
      rcases hend with ⟨_, h2⟩ | ⟨_, _, h3⟩
      · exact ⟨fuel - 1, by omega⟩
      · exact ⟨fuel - 1, by omega⟩
    obtain ⟨hb0, hc0⟩ := hpass 0 (Nat.succ_pos n)
    have hb : b > maxB := by simpa using hb0
    have hc : clip (b - stepY) = some (f 0) := by simpa using hc0
    have e1 : ∀ i : Nat, b - ((i + 1 : Nat) : K) * stepY = b - stepY - (i : K) * stepY := by
      intro i; push_cast; ring
    have hrec := ih f2 (b - stepY) (h ++ [f 0]) (fun i => f (i + 1))
      (fun i hi => by
        obtain ⟨h1, h2⟩ := hpass (i + 1) (by omega)
        rw [e1] at h1
        rw [e1 (i + 1)] at h2
        exact ⟨h1, h2⟩)
      (by
        rcases hend with ⟨h1, h2⟩ | ⟨h1, h2, h3⟩
        · rw [e1] at h1
          exact Or.inl ⟨h1, by omega⟩
        · rw [e1] at h1
          rw [e1 (n + 1)] at h2
          exact Or.inr ⟨h1, h2, by omega⟩)
    simp only [sweepLoop, hb, hc, if_true]
    rw [hrec, List.range_succ_eq_map, List.map_cons, List.map_map]
    simp [Function.comp_def]

/-- Two runs whose bodies correspond under a shift `c` of the intercept and a map
`g` of the emitted lines correspond themselves. -/
theorem sweepLoop_map (clip clip2 : K → Option (Line_2 K)) (g : Line_2 K → Line_2 K)
    (c stepY maxB : K) (hclip : ∀ b, clip2 (b + c) = (clip b).map g) :
    ∀ (fuel : Nat) (b : K) (h : List (Line_2 K)),
      sweepLoop clip2 stepY (maxB + c) fuel (b + c) (h.map g)
        = (sweepLoop clip stepY maxB fuel b h).map (List.map g) := by
  intro fuel
  induction fuel with
  | zero =>
    intro b h
    by_cases hb : b > maxB
    · have hb2 : b + c > maxB + c := by linarith
      simp [sweepLoop, hb, hb2]
    · have hb2 : ¬ (b + c > maxB + c) := fun hgt => hb (by linarith)
      simp [sweepLoop, hb, hb2]
  | succ fuel ih =>
    intro b h
    have e : b + c - stepY = b - stepY + c := by ring
    by_cases hb : b > maxB
    · have hb2 : b + c > maxB + c := by linarith
      cases hc : clip (b - stepY) with
      | none =>
        have hc2 : clip2 (b - stepY + c) = none := by rw [hclip, hc]; rfl
        simp [sweepLoop, hb, hb2, hc, e, hc2]
      | some l =>
        have hc2 : clip2 (b - stepY + c) = some (g l) := by rw [hclip, hc]; rfl
        simp only [sweepLoop, hb, hb2, hc, e, hc2, if_true]
        rw [← ih (b - stepY) (h ++ [l])]
        simp
    · have hb2 : ¬ (b + c > maxB + c) := fun hgt => hb (by linarith)
      simp [sweepLoop, hb, hb2]

end Sweep

/-! ## Geometry of the loop bodies and the trigonometric facts -/

section Clip
variable {K : Type} [LinearOrderedField K]

theorem acuteClip_inRect {TL BR : Point_2 K} {k b : K} {l : Line_2 K} (hk : 0 < k)
    (hx : TL.x ≤ BR.x) (hy : BR.y ≤ TL.y) (hb : b < TL.y - k * TL.x)
    (h : acuteClip TL BR k b = some l) :
    inRect TL BR l.firstPoint ∧ inRect TL BR l.secondPoint := by
  unfold acuteClip at h
  simp only at h
  split_ifs at h with c1 c2 c3 c4 c5 c6
  all_goals
    simp only [Option.some.injEq] at h
    subst h
    simp only [gt_iff_lt, not_lt, lt_div_iff₀ hk, div_le_iff₀ hk] at *
    refine ⟨⟨?_, ?_, ?_, ?_⟩, ⟨?_, ?_, ?_, ?_⟩⟩ <;>
      simp only [le_div_iff₀ hk, div_le_iff₀ hk] <;> linarith

theorem acuteClip_onLine {TL BR : Point_2 K} {k b : K} {l : Line_2 K} (hk : k ≠ 0)
    (h : acuteClip TL BR k b = some l) :
    onLine k b l.firstPoint ∧ onLine k b l.secondPoint := by
  unfold acuteClip at h
  simp only at h
  split_ifs at h with c1 c2 c3 c4 c5 c6
  all_goals
    simp only [Option.some.injEq] at h
    subst h
    refine ⟨?_, ?_⟩ <;> simp only [onLine] <;> field_simp

/-- The obtuse body at slope `-k` is the mirror image of the acute body at slope
`k`, the intercepts being related by the reflection. -/
theorem obtuseClip_mirror (TL BR : Point_2 K) (k b : K) (hk : k ≠ 0) :
    obtuseClip TL BR (-k) (b + k * (TL.x + BR.x))
      = (acuteClip TL BR k b).map (mirrorLine TL BR) := by
  have e1 : (TL.y - (b + k * (TL.x + BR.x))) / (-k) = TL.x + BR.x - (TL.y - b) / k := by
    have h1 : (TL.y - b) / k * k = TL.y - b := div_mul_cancel₀ _ hk
    rw [div_eq_iff (neg_ne_zero.mpr hk)]
    linear_combination (-1 : K) * h1
  have e2 : (BR.y - (b + k * (TL.x + BR.x))) / (-k) = TL.x + BR.x - (BR.y - b) / k := by
    have h1 : (BR.y - b) / k * k = BR.y - b := div_mul_cancel₀ _ hk
    rw [div_eq_iff (neg_ne_zero.mpr hk)]
    linear_combination (-1 : K) * h1
  have e3 : -k * TL.x + (b + k * (TL.x + BR.x)) = k * BR.x + b := by ring
  have e4 : -k * BR.x + (b + k * (TL.x + BR.x)) = k * TL.x + b := by ring
  unfold obtuseClip acuteClip
  simp only [e1, e2, e3, e4]
  split_ifs <;> first
    | (exfalso; linarith)
    | simp [mirrorLine, mirrorPoint]

theorem obtuseClip_eq_mirror (TL BR : Point_2 K) (k b : K) (hk : k ≠ 0) :
    obtuseClip TL BR k b
      = (acuteClip TL BR (-k) (b + k * (TL.x + BR.x))).map (mirrorLine TL BR) := by
  have h := obtuseClip_mirror TL BR (-k) (b + k * (TL.x + BR.x)) (neg_ne_zero.mpr hk)
  rw [← h, neg_neg]
  congr 1
  ring

theorem mirrorPoint_inRect {TL BR p : Point_2 K} (h : inRect TL BR p) :
    inRect TL BR (mirrorPoint TL BR p) := by
  obtain ⟨h1, h2, h3, h4⟩ := h
  refine ⟨?_, ?_, h3, h4⟩ <;> simp only [mirrorPoint] <;> linarith

theorem mirrorLine_involutive (TL BR : Point_2 K) (l : Line_2 K) :
    mirrorLine TL BR (mirrorLine TL BR l) = l := by
  cases l with
  | mk p q =>
    cases p
    cases q
    simp [mirrorLine, mirrorPoint]

theorem obtuseClip_inRect {TL BR : Point_2 K} {k b : K} {l : Line_2 K} (hk : k < 0)
    (hx : TL.x ≤ BR.x) (hy : BR.y ≤ TL.y) (hb : b < TL.y - k * BR.x)
    (h : obtuseClip TL BR k b = some l) :
    inRect TL BR l.firstPoint ∧ inRect TL BR l.secondPoint := by
  rw [obtuseClip_eq_mirror TL BR k b (ne_of_lt hk)] at h
  cases hc : acuteClip TL BR (-k) (b + k * (TL.x + BR.x)) with
  | none => simp [hc] at h
  | some l2 =>
    simp only [hc, Option.map_some', Option.some.injEq] at h
    subst h
    obtain ⟨h1, h2⟩ := acuteClip_inRect (neg_pos.mpr hk) hx hy (by linarith) hc
    exact ⟨mirrorPoint_inRect h1, mirrorPoint_inRect h2⟩

theorem obtuseClip_onLine {TL BR : Point_2 K} {k b : K} {l : Line_2 K} (hk : k ≠ 0)
    (h : obtuseClip TL BR k b = some l) :
    onLine k b l.firstPoint ∧ onLine k b l.secondPoint := by
  rw [obtuseClip_eq_mirror TL BR k b hk] at h
  cases hc : acuteClip TL BR (-k) (b + k * (TL.x + BR.x)) with
  | none => simp [hc] at h
  | some l2 =>
    simp only [hc, Option.map_some', Option.some.injEq] at h
    subst h
    obtain ⟨h1, h2⟩ := acuteClip_onLine (neg_ne_zero.mpr hk) hc
    simp only [onLine] at h1 h2
    constructor <;> simp only [onLine, mirrorLine, mirrorPoint] <;> linarith

end Clip

section Trig

theorem rad_acute {a : ℝ} (h1 : 0 < a) (h2 : a < 90) :
    0 < a * Real.pi / 180 ∧ a * Real.pi / 180 < Real.pi / 2 := by
  have hpi := Real.pi_pos
  constructor
  · positivity
  · nlinarith

/-- In the acute regime the slope and the cosine are positive. -/
theorem acute_trig {a : ℝ} (h1 : 0 < a) (h2 : a < 90) :
    0 < slopeK ⟨Real.pi, Real.tan, Real.cos⟩ a ∧
      0 < Real.cos (degreesToRadians ⟨Real.pi, Real.tan, Real.cos⟩ a) := by
  obtain ⟨r1, r2⟩ := rad_acute h1 h2
  simp only [slopeK, degreesToRadians]
  exact ⟨Real.tan_pos_of_pos_of_lt_pi_div_two r1 r2,
    Real.cos_pos_of_mem_Ioo ⟨by linarith, r2⟩⟩

/-- The slope at `180 - a` is the negative of the slope at `a`. -/
theorem slopeK_supplement (a : ℝ) :
    slopeK ⟨Real.pi, Real.tan, Real.cos⟩ (180 - a) = - slopeK ⟨Real.pi, Real.tan, Real.cos⟩ a := by
  simp only [slopeK, degreesToRadians]
  rw [show (180 - a) * Real.pi / 180 = Real.pi - a * Real.pi / 180 by ring, Real.tan_pi_sub]

/-- The obtuse intercept step at `180 - a` is the acute intercept step at `a`. -/
theorem stepYObtuse_supplement (a s : ℝ) :
    stepYObtuse ⟨Real.pi, Real.tan, Real.cos⟩ (180 - a) s
      = stepYAcute ⟨Real.pi, Real.tan, Real.cos⟩ a s := by
  simp only [stepYObtuse, stepYAcute, sub_sub_cancel]

/-- In the obtuse regime the slope is negative and the cosine of the supplement
is positive. -/
theorem obtuse_trig {a : ℝ} (h1 : 90 < a) (h2 : a < 180) :
    slopeK ⟨Real.pi, Real.tan, Real.cos⟩ a < 0 ∧
      0 < Real.cos (degreesToRadians ⟨Real.pi, Real.tan, Real.cos⟩ (180 - a)) := by
  obtain ⟨r1, r2⟩ := @acute_trig (180 - a) (by linarith) (by linarith)
  rw [slopeK_supplement] at r1
  exact ⟨by linarith, r2⟩

theorem stepYAcute_pos {a s : ℝ} (h1 : 0 < a) (h2 : a < 90) (hs : 0 < s) :
    0 < stepYAcute ⟨Real.pi, Real.tan, Real.cos⟩ a s :=
  div_pos hs (acute_trig h1 h2).2

theorem stepYObtuse_pos {a s : ℝ} (h1 : 90 < a) (h2 : a < 180) (hs : 0 < s) :
    0 < stepYObtuse ⟨Real.pi, Real.tan, Real.cos⟩ a s :=
  div_pos hs (obtuse_trig h1 h2).2

theorem one_add_tan_sq {x : ℝ} (hc : Real.cos x ≠ 0) :
    1 + Real.tan x ^ 2 = (1 / Real.cos x) ^ 2 := by
  rw [Real.tan_eq_sin_div_cos]
  field_simp

end Trig

/-! ## The branches of `generateHatch` -/

section Regimes

variable {K : Type} [LinearOrderedField K]

/-- The call `generateHatch` in terms of the branch function, once the corners
are known. -/
theorem generateHatch_eq (T : CMath K) (fuel : Nat) (self : HatchGenerator K)
    {pts : List (Point_2 K)} {TL BR : Point_2 K} (angel step : K)
    (hTL : findTopLeftCorner pts = some TL) (hBR : findBottomRightCorner pts = some BR) :
    HatchGenerator.generateHatch T fuel self pts angel step
      = (hatchLines T fuel self.hatch TL BR angel step).map (fun h => (h, ⟨h⟩)) := by
  simp only [HatchGenerator.generateHatch, hTL, hBR]
  cases hatchLines T fuel self.hatch TL BR angel step <;> rfl

/-- The branch taken for `0 < angel < 90`. -/
theorem hatchLines_acute (T : CMath K) (fuel : Nat) (hatch : List (Line_2 K))
    (TL BR : Point_2 K) {angel : K} (step : K) (h1 : 0 < angel) (h2 : angel < 90) :
    hatchLines T fuel hatch TL BR angel step
      = sweepLoop (acuteClip TL BR (slopeK T angel)) (stepYAcute T angel step)
          (BR.y - slopeK T angel * BR.x) fuel (TL.y - slopeK T angel * TL.x) hatch := by
  have n90 : angel ≠ 90 := ne_of_lt h2
  have n0 : angel ≠ 0 := ne_of_gt h1
  simp [hatchLines, n90, n0, h1, h2]

/-- The branch taken for `90 < angel < 180`. -/
theorem hatchLines_obtuse (T : CMath K) (fuel : Nat) (hatch : List (Line_2 K))
    (TL BR : Point_2 K) {angel : K} (step : K) (h1 : 90 < angel) (h2 : angel < 180) :
    hatchLines T fuel hatch TL BR angel step
      = sweepLoop (obtuseClip TL BR (slopeK T angel)) (stepYObtuse T angel step)
          (BR.y - slopeK T angel * TL.x) fuel (TL.y - slopeK T angel * BR.x) hatch := by
  have n90 : angel ≠ 90 := ne_of_gt h1
  have h0 : (0 : K) < angel := lt_trans (by norm_num) h1
  have n0 : angel ≠ 0 := ne_of_gt h0
  have n3 : ¬ (angel < 90) := not_lt.mpr (le_of_lt h1)
  simp [hatchLines, n90, n0, h1, h2, n3]

/-- For a positive intercept step there is a least number of steps that brings
the intercept to `maxB` or below. -/
theorem exists_least_steps [Archimedean K] (b0 maxB stepY : K) (hs : 0 < stepY) :
    ∃ n : Nat, b0 - n * stepY ≤ maxB ∧ ∀ m : Nat, m < n → maxB < b0 - m * stepY := by
  classical
  have hex : ∃ n : Nat, b0 - n * stepY ≤ maxB := by
    obtain ⟨n, hn⟩ := Archimedean.arch (b0 - maxB) hs
    rw [nsmul_eq_mul] at hn
    exact ⟨n, by linarith⟩
  exact ⟨Nat.find hex, Nat.find_spec hex, fun m hm => not_le.mp (Nat.find_min hex hm)⟩

/-- A sweep with a positive intercept step: it stops within the least `n` with
`b0 - n * stepY ≤ maxB` passes, and the `i`-th emitted line (from 1) is the one
clipped from the intercept `b0 - i * stepY`. -/
theorem sweepLoop_run [Archimedean K] (clip : K → Option (Line_2 K)) (b0 maxB stepY : K)
    (hs : 0 < stepY) :
    ∃ (n : Nat) (L : List (Line_2 K)),
      (b0 - n * stepY ≤ maxB ∧ ∀ m : Nat, m < n → maxB < b0 - m * stepY) ∧
      sweepLoop clip stepY maxB n b0 [] = some L ∧
      ∀ i : Nat, i < L.length → clip (b0 - (i + 1 : Nat) * stepY) = L[i]? := by
  obtain ⟨n, hn, hmin⟩ := exists_least_steps b0 maxB stepY hs
  have hsome := sweepLoop_isSome clip stepY maxB n b0 [] hn
  obtain ⟨L, hL⟩ := Option.isSome_iff_exists.mp hsome
  obtain ⟨L2, hL2, hpass, _⟩ := sweepLoop_spec clip stepY maxB n b0 [] L hL
  simp only [List.nil_append] at hL2
  subst hL2
  exact ⟨n, L, ⟨hn, hmin⟩, hL, fun i hi => (hpass i hi).2⟩

end Regimes

section Append
variable {K : Type} [LinearOrderedField K]

theorem vertLoop_append (TL BR : Point_2 K) (step : K) :
    ∀ (fuel : Nat) (Xi : K) (h : List (Line_2 K)),
      vertLoop TL BR step fuel Xi h
        = (vertLoop TL BR step fuel Xi []).map (fun L => h ++ L) := by
  intro fuel
  induction fuel with
  | zero =>
    intro Xi h
    by_cases hc : Xi < BR.x <;> simp [vertLoop, hc]
  | succ fuel ih =>
    intro Xi h
    by_cases hc : Xi < BR.x
    · simp only [vertLoop, hc, if_true, List.nil_append]
      rw [ih (Xi + step) (h ++ _), ih (Xi + step) [_], Option.map_map]
      congr 1
      funext L
      simp
    · simp [vertLoop, hc]

theorem horizLoop_append (TL BR : Point_2 K) (step : K) :
    ∀ (fuel : Nat) (Yi : K) (h : List (Line_2 K)),
      horizLoop TL BR step fuel Yi h
        = (horizLoop TL BR step fuel Yi []).map (fun L => h ++ L) := by
  intro fuel
  induction fuel with
  | zero =>
    intro Yi h
    by_cases hc : Yi < TL.y <;> simp [horizLoop, hc]
  | succ fuel ih =>
    intro Yi h
    by_cases hc : Yi < TL.y
    · simp only [horizLoop, hc, if_true, List.nil_append]
      rw [ih (Yi + step) (h ++ _), ih (Yi + step) [_], Option.map_map]
      congr 1
      funext L
      simp
    · simp [horizLoop, hc]

/-- Every branch only appends to the accumulator. -/
theorem hatchLines_append (T : CMath K) (fuel : Nat) (h : List (Line_2 K))
    (TL BR : Point_2 K) (angel step : K) :
    hatchLines T fuel h TL BR angel step
      = (hatchLines T fuel [] TL BR angel step).map (fun L => h ++ L) := by
  unfold hatchLines
  split_ifs
  · exact vertLoop_append _ _ _ _ _ _
  · exact horizLoop_append _ _ _ _ _ _
  · exact sweepLoop_append _ _ _ _ _ _
  · exact sweepLoop_append _ _ _ _ _ _
  · simp

/-- The call on an engine holding `h` in terms of the call on a fresh engine. -/
theorem generateHatch_append (T : CMath K) (fuel : Nat) (h : List (Line_2 K))
    (pts : List (Point_2 K)) (angel step : K) :
    HatchGenerator.generateHatch T fuel ⟨h⟩ pts angel step
      = (HatchGenerator.generateHatch T fuel HatchGenerator.fresh pts angel step).map
          (fun r => (h ++ r.1, ⟨h ++ r.1⟩)) := by
  cases pts with
  | nil => simp [HatchGenerator.generateHatch, findTopLeftCorner]
  | cons p rest =>
    obtain ⟨TL, BR, hTL, hBR⟩ := corners_exist (p :: rest) (List.cons_ne_nil p rest)
    rw [generateHatch_eq T fuel ⟨h⟩ angel step hTL hBR,
      generateHatch_eq T fuel HatchGenerator.fresh angel step hTL hBR, hatchLines_append]
    simp only [HatchGenerator.fresh, Option.map_map]
    rfl

/-- The returned vector is the member `hatch` after the call. -/
theorem generateHatch_state (T : CMath K) (fuel : Nat) (self : HatchGenerator K)
    (pts : List (Point_2 K)) (angel step : K) (L : List (Line_2 K)) (e : HatchGenerator K)
    (hrun : HatchGenerator.generateHatch T fuel self pts angel step = some (L, e)) :
    e = ⟨L⟩ := by
  cases pts with
  | nil => simp [HatchGenerator.generateHatch, findTopLeftCorner] at hrun
  | cons p rest =>
    obtain ⟨TL, BR, hTL, hBR⟩ := corners_exist (p :: rest) (List.cons_ne_nil p rest)
    rw [generateHatch_eq T fuel self angel step hTL hBR] at hrun
    simp only [Option.map_eq_some'] at hrun
    obtain ⟨a, _, ha⟩ := hrun
    simp only [Prod.mk.injEq] at ha
    rw [← ha.2, ha.1]

end Append

/-! ## The contour of `main` at 45 degrees -/

section Main45

theorem main_corners :
    findTopLeftCorner (contoursPoints : List (Point_2 ℝ)) = some ⟨0, 10⟩ ∧
    findBottomRightCorner (contoursPoints : List (Point_2 ℝ)) = some ⟨10, 0⟩ := by
  constructor <;> norm_num [contoursPoints, findTopLeftCorner, findBottomRightCorner]

theorem slopeK_45 : slopeK ⟨Real.pi, Real.tan, Real.cos⟩ 45 = 1 := by
  simp only [slopeK, degreesToRadians]
  rw [show (45 : ℝ) * Real.pi / 180 = Real.pi / 4 by ring, Real.tan_pi_div_four]

theorem stepYAcute_45 (s : ℝ) :
    stepYAcute ⟨Real.pi, Real.tan, Real.cos⟩ 45 s = s * Real.sqrt 2 := by
  simp only [stepYAcute, degreesToRadians]
  rw [show (45 : ℝ) * Real.pi / 180 = Real.pi / 4 by ring, Real.cos_pi_div_four]
  have h2 : Real.sqrt 2 * Real.sqrt 2 = 2 := Real.mul_self_sqrt (by norm_num)
  have hpos : 0 < Real.sqrt 2 := Real.sqrt_pos.mpr (by norm_num)
  field_simp
  linear_combination (-s) * h2

theorem sqrt_two_bounds : (1.4142 : ℝ) < Real.sqrt 2 ∧ Real.sqrt 2 < 1.4143 := by
  have h2 : Real.sqrt 2 * Real.sqrt 2 = 2 := Real.mul_self_sqrt (by norm_num)
  have hpos : 0 ≤ Real.sqrt 2 := Real.sqrt_nonneg 2
  constructor <;> nlinarith

/-- The acute body on the contour of `main` at slope 1, for the line
`y = x + 10 - t`. -/
theorem acuteClip_main (t : ℝ) :
    (0 < t → t ≤ 10 →
      acuteClip (⟨0, 10⟩ : Point_2 ℝ) ⟨10, 0⟩ 1 (10 - t) = some ⟨⟨t, 10⟩, ⟨0, 10 - t⟩⟩) ∧
    (10 < t → t ≤ 20 →
      acuteClip (⟨0, 10⟩ : Point_2 ℝ) ⟨10, 0⟩ 1 (10 - t) = some ⟨⟨10, 20 - t⟩, ⟨t - 10, 0⟩⟩) ∧
    (20 < t → acuteClip (⟨0, 10⟩ : Point_2 ℝ) ⟨10, 0⟩ 1 (10 - t) = none) := by
  refine ⟨fun h1 h2 => ?_, fun h1 h2 => ?_, fun h1 => ?_⟩
  · have c1 : ¬ ((10 - (10 - t)) / 1 > (10 : ℝ)) := by norm_num; linarith
    have c2 : ¬ ((1 : ℝ) * 0 + (10 - t) < 0) := by norm_num; linarith
    simp only [acuteClip, c1, c2, if_false]
    norm_num
  · have c1 : (10 - (10 - t)) / 1 > (10 : ℝ) := by norm_num; linarith
    have c2 : ¬ ((1 : ℝ) * 10 + (10 - t) < 0) := by norm_num; linarith
    have c3 : (1 : ℝ) * 0 + (10 - t) < 0 := by norm_num; linarith
    have c4 : ¬ ((0 - (10 - t)) / 1 > (10 : ℝ)) := by norm_num; linarith
    simp only [acuteClip, c1, c2, c3, c4, if_false, if_true]
    norm_num
    ring
  · have c1 : (10 - (10 - t)) / 1 > (10 : ℝ) := by norm_num; linarith
    have c2 : (1 : ℝ) * 10 + (10 - t) < 0 := by norm_num; linarith
    simp only [acuteClip, c1, c2, if_true]

end Main45

/-! ## Mirror symmetry of the diagonal branches -/

section Mirror

/-- In the acute regime the run at the supplementary angle `180 - angel` is the
mirror image, line by line, of the run at `angel`. -/
theorem hatchLines_supplement (fuel : ℕ) (TL BR : Point_2 ℝ) {angel : ℝ} (step : ℝ)
    (h1 : 0 < angel) (h2 : angel < 90) :
    hatchLines ⟨Real.pi, Real.tan, Real.cos⟩ fuel [] TL BR (180 - angel) step
      = (hatchLines ⟨Real.pi, Real.tan, Real.cos⟩ fuel [] TL BR angel step).map
          (List.map (mirrorLine TL BR)) := by
  have hk := (acute_trig h1 h2).1
  rw [hatchLines_obtuse _ _ _ _ _ _ (by linarith) (by linarith),
    hatchLines_acute _ _ _ _ _ _ h1 h2, slopeK_supplement, stepYObtuse_supplement]
  have hmap := sweepLoop_map
    (acuteClip TL BR (slopeK ⟨Real.pi, Real.tan, Real.cos⟩ angel))
    (obtuseClip TL BR (-slopeK ⟨Real.pi, Real.tan, Real.cos⟩ angel))
    (mirrorLine TL BR)
    (slopeK ⟨Real.pi, Real.tan, Real.cos⟩ angel * (TL.x + BR.x))
    (stepYAcute ⟨Real.pi, Real.tan, Real.cos⟩ angel step)
    (BR.y - slopeK ⟨Real.pi, Real.tan, Real.cos⟩ angel * BR.x)
    (fun b => obtuseClip_mirror TL BR _ b (ne_of_gt hk))
    fuel (TL.y - slopeK ⟨Real.pi, Real.tan, Real.cos⟩ angel * TL.x) []
  rw [← hmap]
  simp only [List.map_nil]
  congr 1 <;> ring

end Mirror

/-! ## More on the corner scans -/

section CornersUndominated
variable {K : Type} [LinearOrderedField K]

/-- The result of the top-left scan started at `p` is `p` or a point of the rest,
and no point of the rest has a strictly larger `y` together with an `x` not
larger than it. -/
theorem foldl_topLeft_undominated (rest : List (Point_2 K)) (p : Point_2 K) :
    (rest.foldl (fun topLeftCorner it =>
        if it.y > topLeftCorner.y ∧ it.x ≤ topLeftCorner.x then it else topLeftCorner) p)
      ∈ p :: rest ∧
    ∀ q ∈ rest, ¬ (q.y > (rest.foldl (fun topLeftCorner it =>
        if it.y > topLeftCorner.y ∧ it.x ≤ topLeftCorner.x then it else topLeftCorner) p).y ∧
      q.x ≤ (rest.foldl (fun topLeftCorner it =>
        if it.y > topLeftCorner.y ∧ it.x ≤ topLeftCorner.x then it else topLeftCorner) p).x) := by
  induction rest generalizing p with
  | nil => simp
  | cons a rest ih =>
    simp only [List.foldl_cons]
    split_ifs with h
    · obtain ⟨hmem, hund⟩ := ih a
      obtain ⟨hx, hy⟩ := foldl_topLeft_bounds rest a
      refine ⟨List.mem_cons_of_mem _ hmem, ?_⟩
      intro q hq
      rcases List.mem_cons.mp hq with rfl | hq
      · rintro ⟨h1, _⟩
        exact absurd h1 (not_lt.mpr hy)
      · exact hund q hq
    · obtain ⟨hmem, hund⟩ := ih p
      obtain ⟨hx, hy⟩ := foldl_topLeft_bounds rest p
      refine ⟨?_, ?_⟩
      · rcases List.mem_cons.mp hmem with h1 | h1
        · rw [h1]; exact List.mem_cons_self _ _
        · exact List.mem_cons_of_mem _ (List.mem_cons_of_mem _ h1)
      · intro q hq
        rcases List.mem_cons.mp hq with rfl | hq
        · rintro ⟨h1, h2⟩
          apply h
          exact ⟨lt_of_le_of_lt hy h1, le_trans h2 hx⟩
        · exact hund q hq

end CornersUndominated

section RectangleScan
variable {K : Type} [LinearOrderedField K]

/-- The top-left scan over corners of the rectangle `[x0, x1] × [y0, y1]` other
than the bottom-left one: started at the top-left corner it stays there, and
started at the bottom-left corner it ends at the top-left corner as soon as that
corner occurs. -/
theorem foldl_topLeft_rect {x0 x1 y0 y1 : K} (hx : x0 < x1) (hy : y0 < y1)
    (rest : List (Point_2 K))
    (hall : ∀ q ∈ rest, q = ⟨x1, y0⟩ ∨ q = ⟨x1, y1⟩ ∨ q = ⟨x0, y1⟩) :
    rest.foldl (fun topLeftCorner it =>
        if it.y > topLeftCorner.y ∧ it.x ≤ topLeftCorner.x then it else topLeftCorner)
        ⟨x0, y1⟩ = ⟨x0, y1⟩ ∧
    ((⟨x0, y1⟩ : Point_2 K) ∈ rest →
      rest.foldl (fun topLeftCorner it =>
        if it.y > topLeftCorner.y ∧ it.x ≤ topLeftCorner.x then it else topLeftCorner)
        ⟨x0, y0⟩ = ⟨x0, y1⟩) := by
  induction rest with
  | nil => simp
  | cons a rest ih =>
    obtain ⟨ih1, ih2⟩ := ih (fun q hq => hall q (List.mem_cons_of_mem _ hq))
    have hne : x1 ≠ x0 := ne_of_gt hx
    have hnle : ¬ (x1 ≤ x0) := not_le.mpr hx
    have hnlt : ¬ (y1 < y0) := not_lt.mpr (le_of_lt hy)
    rcases hall a (List.mem_cons_self _ _) with rfl | rfl | rfl
    · refine ⟨by simpa [hnlt] using ih1, fun hmem => ?_⟩
      have hmem2 : (⟨x0, y1⟩ : Point_2 K) ∈ rest := by
        rcases List.mem_cons.mp hmem with h | h
        · simp [Point_2.mk.injEq, hne.symm] at h
        · exact h
      simpa using ih2 hmem2
    · refine ⟨by simpa using ih1, fun hmem => ?_⟩
      have hmem2 : (⟨x0, y1⟩ : Point_2 K) ∈ rest := by
        rcases List.mem_cons.mp hmem with h | h
        · simp [Point_2.mk.injEq, hne.symm] at h
        · exact h
      simpa [hnle] using ih2 hmem2
    · exact ⟨by simpa using ih1, fun _ => by simpa [hy] using ih1⟩

/-- The bottom-right scan over corners of the rectangle `[x0, x1] × [y0, y1]`
other than the bottom-left one: started at the bottom-right corner it stays
there, and started at the bottom-left corner it ends at the bottom-right corner
as soon as that corner occurs. -/
theorem foldl_bottomRight_rect {x0 x1 y0 y1 : K} (hx : x0 < x1) (hy : y0 < y1)
    (rest : List (Point_2 K))
    (hall : ∀ q ∈ rest, q = ⟨x1, y0⟩ ∨ q = ⟨x1, y1⟩ ∨ q = ⟨x0, y1⟩) :
    rest.foldl (fun bottomRightCorner it =>
        if it.y ≤ bottomRightCorner.y ∧ it.x > bottomRightCorner.x then it
        else bottomRightCorner) ⟨x1, y0⟩ = ⟨x1, y0⟩ ∧
    ((⟨x1, y0⟩ : Point_2 K) ∈ rest →
      rest.foldl (fun bottomRightCorner it =>
        if it.y ≤ bottomRightCorner.y ∧ it.x > bottomRightCorner.x then it
        else bottomRightCorner) ⟨x0, y0⟩ = ⟨x1, y0⟩) := by
  induction rest with
  | nil => simp
  | cons a rest ih =>
    obtain ⟨ih1, ih2⟩ := ih (fun q hq => hall q (List.mem_cons_of_mem _ hq))
    have hne : y1 ≠ y0 := ne_of_gt hy
    have hnle : ¬ (y1 ≤ y0) := not_le.mpr hy
    have hnlt : ¬ (x1 < x0) := not_lt.mpr (le_of_lt hx)
    rcases hall a (List.mem_cons_self _ _) with rfl | rfl | rfl
    · exact ⟨by simpa using ih1, fun _ => by simpa [hx] using ih1⟩
    · refine ⟨by simpa using ih1, fun hmem => ?_⟩
      have hmem2 : (⟨x1, y0⟩ : Point_2 K) ∈ rest := by
        rcases List.mem_cons.mp hmem with h | h
        · simp [Point_2.mk.injEq, hne.symm] at h
        · exact h
      simpa [hnle] using ih2 hmem2
    · refine ⟨by simpa [hnlt] using ih1, fun hmem => ?_⟩
      have hmem2 : (⟨x1, y0⟩ : Point_2 K) ∈ rest := by
        rcases List.mem_cons.mp hmem with h | h
        · simp [Point_2.mk.injEq, (ne_of_gt hx)] at h
        · exact h
      simpa using ih2 hmem2

end RectangleScan

/-! ## The early stop of the diagonal sweeps -/

section EarlyStop
variable {K : Type} [LinearOrderedField K]

/-- The acute body breaks exactly when the intercept is strictly below the
intercept of the line through the bottom-right corner. -/
theorem acuteClip_none_iff (TL BR : Point_2 K) {k : K} (hk : 0 < k)
    (hy : BR.y ≤ TL.y) (b : K) :
    acuteClip TL BR k b = none ↔ b < BR.y - k * BR.x := by
  unfold acuteClip
  simp only
  constructor
  · intro h
    split_ifs at h with c1 c2 c3 c4 c5 c6
    all_goals
      simp only [gt_iff_lt, not_lt, lt_div_iff₀ hk, div_le_iff₀ hk] at *
      linarith
  · intro h
    have c1 : (TL.y - b) / k > BR.x := by
      rw [gt_iff_lt, lt_div_iff₀ hk]
      linarith
    have c2 : k * BR.x + b < BR.y := by linarith
    simp [c1, c2]

/-- The obtuse body breaks exactly when the intercept is strictly below the
intercept of the line through the bottom-left corner. -/
theorem obtuseClip_none_iff (TL BR : Point_2 K) {k : K} (hk : k < 0)
    (hy : BR.y ≤ TL.y) (b : K) :
    obtuseClip TL BR k b = none ↔ b < BR.y - k * TL.x := by
  rw [obtuseClip_eq_mirror TL BR k b (ne_of_lt hk), Option.map_eq_none',
    acuteClip_none_iff TL BR (neg_pos.mpr hk) hy]
  constructor <;> intro h <;> linarith

/-- The acute body on the line through the bottom-right corner emits the
degenerate line from that corner to itself. -/
theorem acuteClip_corner {TL BR : Point_2 K} {k : K} (hk : 0 < k)
    (hx : TL.x ≤ BR.x) (hy : BR.y ≤ TL.y) :
    acuteClip TL BR k (BR.y - k * BR.x) = some ⟨BR, BR⟩ := by
  have e1 : (BR.y - (BR.y - k * BR.x)) / k = BR.x := by
    field_simp
  have e2 : k * BR.x + (BR.y - k * BR.x) = BR.y := by ring
  have e3 : (TL.y - (BR.y - k * BR.x)) / k = BR.x + (TL.y - BR.y) / k := by
    field_simp
    ring
  have hq : 0 ≤ (TL.y - BR.y) / k := div_nonneg (by linarith) (le_of_lt hk)
  unfold acuteClip
  simp only [e1, e2, e3, lt_irrefl, if_false, gt_iff_lt]
  cases BR with
  | mk bx by_ =>
    simp only at hx hy hq ⊢
    by_cases c1 : bx < bx + (TL.y - by_) / k
    · by_cases c3 : k * TL.x + (by_ - k * bx) < by_
      · simp [c1, c3]
      · have hxe : TL.x = bx := by
          have : k * (bx - TL.x) ≤ 0 := by linarith
          have : bx - TL.x ≤ 0 := by
            by_contra hcon
            have := mul_pos hk (not_le.mp hcon)
            linarith
          linarith
        simp [c1, c3, hxe]
    · have hye : TL.y = by_ := by
        have h0 : (TL.y - by_) / k = 0 := by linarith
        rcases div_eq_zero_iff.mp h0 with h | h
        · linarith
        · exact absurd h (ne_of_gt hk)
      by_cases c3 : k * TL.x + (by_ - k * bx) < by_
      · simp [c1, c3, hye]
      · have hxe : TL.x = bx := by
          have : k * (bx - TL.x) ≤ 0 := by linarith
          have : bx - TL.x ≤ 0 := by
            by_contra hcon
            have := mul_pos hk (not_le.mp hcon)
            linarith
          linarith
        simp [c1, c3, hye, hxe]

/-- The obtuse body on the line through the bottom-left corner emits the
degenerate line from that corner to itself. -/
theorem obtuseClip_corner {TL BR : Point_2 K} {k : K} (hk : k < 0)
    (hx : TL.x ≤ BR.x) (hy : BR.y ≤ TL.y) :
    obtuseClip TL BR k (BR.y - k * TL.x) = some ⟨⟨TL.x, BR.y⟩, ⟨TL.x, BR.y⟩⟩ := by
  rw [obtuseClip_eq_mirror TL BR k _ (ne_of_lt hk)]
  have e : BR.y - k * TL.x + k * (TL.x + BR.x) = BR.y - (-k) * BR.x := by ring
  rw [e, acuteClip_corner (neg_pos.mpr hk) hx hy]
  simp [mirrorLine, mirrorPoint]

/-- For a positive step the positive `i` with `maxB ≤ b0 - i * stepY` are an
initial segment `1..N`. -/
theorem exists_count_ge [Archimedean K] (b0 maxB stepY : K) (hs : 0 < stepY) :
    ∃ N : Nat, ∀ i : Nat, 0 < i → (maxB ≤ b0 - i * stepY ↔ i ≤ N) := by
  classical
  have hex : ∃ m : Nat, ¬ (maxB ≤ b0 - (m + 1 : Nat) * stepY) := by
    obtain ⟨m, hm⟩ := Archimedean.arch (b0 - maxB) hs
    refine ⟨m, ?_⟩
    rw [nsmul_eq_mul] at hm
    push_cast
    nlinarith
  refine ⟨Nat.find hex, fun i hi => ⟨fun h => ?_, fun h => ?_⟩⟩
  · by_contra hcon
    have hlt : Nat.find hex < i := by omega
    apply Nat.find_spec hex
    have hle : ((Nat.find hex + 1 : Nat) : K) ≤ (i : K) := by exact_mod_cast hlt
    have : ((Nat.find hex + 1 : Nat) : K) * stepY ≤ (i : K) * stepY :=
      mul_le_mul_of_nonneg_right hle (le_of_lt hs)
    linarith
  · obtain ⟨j, rfl⟩ : ∃ j, i = j + 1 := ⟨i - 1, by omega⟩
    have hj : j < Nat.find hex := by omega
    have := Nat.find_min hex hj
    simpa using this

/-- A sweep whose body breaks exactly below `maxB`, with a positive step: the
run returns, and it emits one line for each positive `i` with
`maxB ≤ b0 - i * stepY`, the `i`-th being clipped from the intercept
`b0 - i * stepY`. -/
theorem sweepLoop_count [Archimedean K] (clip : K → Option (Line_2 K)) (b0 maxB stepY : K)
    (hs : 0 < stepY) (hclip : ∀ b, clip b = none ↔ b < maxB) (N : Nat)
    (hN : ∀ i : Nat, 0 < i → (maxB ≤ b0 - i * stepY ↔ i ≤ N)) :
    ∃ (fuel : Nat) (L : List (Line_2 K)),
      sweepLoop clip stepY maxB fuel b0 [] = some L ∧ L.length = N ∧
      ∀ i : Nat, i < L.length → clip (b0 - (i + 1 : Nat) * stepY) = L[i]? := by
  obtain ⟨n, hn, _⟩ := exists_least_steps b0 maxB stepY hs
  have hsome := sweepLoop_isSome clip stepY maxB n b0 [] hn
  obtain ⟨L, hL⟩ := Option.isSome_iff_exists.mp hsome
  obtain ⟨L2, hL2, hpass, hend⟩ := sweepLoop_spec clip stepY maxB n b0 [] L hL
  simp only [List.nil_append] at hL2
  subst hL2
  refine ⟨n, L, hL, ?_, fun i hi => (hpass i hi).2⟩
  apply le_antisymm
  · cases hlen : L.length with
    | zero => exact Nat.zero_le N
    | succ j =>
      have hj : j < L.length := by omega
      obtain ⟨_, hc⟩ := hpass j hj
      have hnone : clip (b0 - ((j + 1 : Nat) : K) * stepY) ≠ none := by
        rw [hc, List.getElem?_eq_getElem hj]
        exact Option.some_ne_none _
      have hge : maxB ≤ b0 - ((j + 1 : Nat) : K) * stepY :=
        not_lt.mp (fun hlt => hnone ((hclip _).mpr hlt))
      exact (hN (j + 1) (Nat.succ_pos j)).mp hge
  · by_contra hcon
    have hlt : L.length + 1 ≤ N := by omega
    have hge := (hN (L.length + 1) (Nat.succ_pos _)).mpr hlt
    rcases hend with ⟨h1, _⟩ | ⟨_, h2, _⟩
    · push_cast at hge
      linarith
    · exact absurd hge (not_le.mpr ((hclip _).mp h2))

end EarlyStop

section CornerHit
variable {K : Type} [LinearOrderedField K]

/-- A sweep whose body breaks exactly below `maxB`, with a positive step, when
the `i`-th intercept hits `maxB` exactly: the run returns `i` lines and the last
one is the line clipped from the intercept `maxB`. -/
theorem sweepLoop_hit [Archimedean K] (clip : K → Option (Line_2 K)) (b0 maxB stepY : K)
    (hs : 0 < stepY) (hclip : ∀ b, clip b = none ↔ b < maxB) (i : Nat) (hi : 0 < i)
    (hit : b0 - i * stepY = maxB) :
    ∃ (fuel : Nat) (L : List (Line_2 K)),
      sweepLoop clip stepY maxB fuel b0 [] = some L ∧ L.length = i ∧
      L[i - 1]? = clip maxB := by
  have hN : ∀ j : Nat, 0 < j → (maxB ≤ b0 - j * stepY ↔ j ≤ i) := by
    intro j _
    rw [← hit]
    constructor
    · intro h
      by_contra hcon
      have hlt : ((i + 1 : Nat) : K) ≤ (j : K) := by exact_mod_cast (by omega : i + 1 ≤ j)
      have := mul_le_mul_of_nonneg_right hlt (le_of_lt hs)
      push_cast at this
      linarith
    · intro h
      have hle : (j : K) ≤ (i : K) := by exact_mod_cast h
      have := mul_le_mul_of_nonneg_right hle (le_of_lt hs)
      linarith
  obtain ⟨fuel, L, hrun, hlen, hpass⟩ := sweepLoop_count clip b0 maxB stepY hs hclip i hN
  refine ⟨fuel, L, hrun, hlen, ?_⟩
  have h := hpass (i - 1) (by omega)
  rw [← h]
  congr 1
  rw [← hit]
  have e : i - 1 + 1 = i := by omega
  rw [e]

end CornerHit

/-! ## A stalled sweep in binary64 -/

section Binary64Stall

/-- A sweep in binary64 whose decrement rounds back to the same intercept, above
`maxB`, on a line the body emits: after any number of passes the loop is still
running and has appended the same line once per pass. -/
theorem sweepLoopD_stall (clip : ℚ → Option (Line_2 ℚ)) (stepY maxB b : ℚ) (l : Line_2 ℚ)
    (hfix : dSub b stepY = b) (hgt : b > maxB) (hclip : clip b = some l) :
    ∀ (fuel : Nat) (h : List (Line_2 ℚ)),
      sweepLoopD clip stepY maxB fuel b h = .running (h ++ List.replicate fuel l) := by
  intro fuel
  induction fuel with
  | zero =>
    intro h
    simp [sweepLoopD, hgt]
  | succ fuel ih =>
    intro h
    simp only [sweepLoopD, hgt, if_true, hfix, hclip]
    rw [ih (h ++ [l])]
    simp [List.replicate_succ]

end Binary64Stall

/-! ## Claims -/

section Claims

/-- C1 (vertical regime).  For angle exactly 90, every step `s > 0` and every
non-empty point list, with `TL` and `BR` the corners returned by the two scans,
`generateHatch` on a fresh engine returns exactly the lines
`((TL.x + i*s, TL.y), (TL.x + i*s, BR.y))` for `i = 1, ..., n` in that order,
where `n` counts the positive integers `i` with `TL.x + i*s < BR.x` (those `i`
are exactly `1..n`); every fuel of at least `n` passes suffices.  For the
contour of `main` and `s = 1` these are the 9 lines at `x = 1..9`, each from
`y = 10` to `y = 0`. -/
theorem C1_vertical_regime :
    (∀ (T : CMath ℝ) (pts : List (Point_2 ℝ)) (s : ℝ), 0 < s → pts ≠ [] →
      ∃ TL BR, findTopLeftCorner pts = some TL ∧ findBottomRightCorner pts = some BR ∧
        ∃ n : ℕ, (∀ i : ℕ, 0 < i → (TL.x + i * s < BR.x ↔ i ≤ n)) ∧
          ∃ L : List (Line_2 ℝ),
            L = (List.range n).map (fun i : ℕ =>
              (⟨⟨TL.x + (i + 1 : ℕ) * s, TL.y⟩, ⟨TL.x + (i + 1 : ℕ) * s, BR.y⟩⟩ : Line_2 ℝ)) ∧
            ∀ fuel, n ≤ fuel →
              HatchGenerator.generateHatch T fuel HatchGenerator.fresh pts 90 s
                = some (L, ⟨L⟩)) ∧
    (∀ T : CMath ℝ,
      HatchGenerator.generateHatch T 9 HatchGenerator.fresh contoursPoints 90 1
        = some ([⟨⟨1, 10⟩, ⟨1, 0⟩⟩, ⟨⟨2, 10⟩, ⟨2, 0⟩⟩, ⟨⟨3, 10⟩, ⟨3, 0⟩⟩, ⟨⟨4, 10⟩, ⟨4, 0⟩⟩,
                 ⟨⟨5, 10⟩, ⟨5, 0⟩⟩, ⟨⟨6, 10⟩, ⟨6, 0⟩⟩, ⟨⟨7, 10⟩, ⟨7, 0⟩⟩, ⟨⟨8, 10⟩, ⟨8, 0⟩⟩,
                 ⟨⟨9, 10⟩, ⟨9, 0⟩⟩],
                ⟨[⟨⟨1, 10⟩, ⟨1, 0⟩⟩, ⟨⟨2, 10⟩, ⟨2, 0⟩⟩, ⟨⟨3, 10⟩, ⟨3, 0⟩⟩, ⟨⟨4, 10⟩, ⟨4, 0⟩⟩,
                 ⟨⟨5, 10⟩, ⟨5, 0⟩⟩, ⟨⟨6, 10⟩, ⟨6, 0⟩⟩, ⟨⟨7, 10⟩, ⟨7, 0⟩⟩, ⟨⟨8, 10⟩, ⟨8, 0⟩⟩,
                 ⟨⟨9, 10⟩, ⟨9, 0⟩⟩]⟩)) := by
  constructor
  · intro T pts s hs hne
    obtain ⟨TL, BR, hTL, hBR⟩ := corners_exist pts hne
    obtain ⟨n, hn, hrun⟩ := hatchLines_vertical T [] TL BR s hs
    refine ⟨TL, BR, hTL, hBR, n, hn, _, rfl, fun fuel hfuel => ?_⟩
    simp only [HatchGenerator.generateHatch, hTL, hBR, HatchGenerator.fresh, hrun fuel hfuel,
      List.nil_append, vertLine]
  · intro T
    norm_num [HatchGenerator.generateHatch, HatchGenerator.fresh, contoursPoints,
      findTopLeftCorner, findBottomRightCorner, hatchLines, vertLoop]

/-- Witness for C1: the general statement applied to the contour of `main` with
step 1 yields corners and a count. -/
theorem C1_vertical_regime_witness :
    (0 : ℝ) < 1 ∧ (contoursPoints : List (Point_2 ℝ)) ≠ [] ∧ ∃ TL BR, findTopLeftCorner (contoursPoints : List (Point_2 ℝ)) = some TL ∧
      findBottomRightCorner (contoursPoints : List (Point_2 ℝ)) = some BR ∧
        ∃ n : ℕ, (∀ i : ℕ, 0 < i → (TL.x + i * (1 : ℝ) < BR.x ↔ i ≤ n)) ∧
          ∃ L : List (Line_2 ℝ),
            L = (List.range n).map (fun i : ℕ =>
              (⟨⟨TL.x + (i + 1 : ℕ) * 1, TL.y⟩, ⟨TL.x + (i + 1 : ℕ) * 1, BR.y⟩⟩ : Line_2 ℝ)) ∧
            ∀ fuel, n ≤ fuel →
              HatchGenerator.generateHatch ⟨Real.pi, Real.tan, Real.cos⟩ fuel
                HatchGenerator.fresh contoursPoints 90 1 = some (L, ⟨L⟩) :=
  ⟨by norm_num, by simp [contoursPoints],
    C1_vertical_regime.1 ⟨Real.pi, Real.tan, Real.cos⟩ contoursPoints 1 (by norm_num)
      (by simp [contoursPoints])⟩

/-- C2 (horizontal regime).  For angle exactly 0, every step `s > 0` and every
non-empty point list, with `TL` and `BR` the corners returned by the two scans,
`generateHatch` on a fresh engine returns exactly the lines
`((TL.x, BR.y + i*s), (BR.x, BR.y + i*s))` for `i = 1, ..., n` in that order,
where `n` counts the positive integers `i` with `BR.y + i*s < TL.y` (those `i`
are exactly `1..n`); every fuel of at least `n` passes suffices.  For the
contour of `main` and `s = 1` these are the 9 lines at `y = 1..9`, each from
`x = 0` to `x = 10`. -/
theorem C2_horizontal_regime :
    (∀ (T : CMath ℝ) (pts : List (Point_2 ℝ)) (s : ℝ), 0 < s → pts ≠ [] →
      ∃ TL BR, findTopLeftCorner pts = some TL ∧ findBottomRightCorner pts = some BR ∧
        ∃ n : ℕ, (∀ i : ℕ, 0 < i → (BR.y + i * s < TL.y ↔ i ≤ n)) ∧
          ∃ L : List (Line_2 ℝ),
            L = (List.range n).map (fun i : ℕ =>
              (⟨⟨TL.x, BR.y + (i + 1 : ℕ) * s⟩, ⟨BR.x, BR.y + (i + 1 : ℕ) * s⟩⟩ : Line_2 ℝ)) ∧
            ∀ fuel, n ≤ fuel →
              HatchGenerator.generateHatch T fuel HatchGenerator.fresh pts 0 s
                = some (L, ⟨L⟩)) ∧
    (∀ T : CMath ℝ,
      HatchGenerator.generateHatch T 9 HatchGenerator.fresh contoursPoints 0 1
        = some ([⟨⟨0, 1⟩, ⟨10, 1⟩⟩, ⟨⟨0, 2⟩, ⟨10, 2⟩⟩, ⟨⟨0, 3⟩, ⟨10, 3⟩⟩, ⟨⟨0, 4⟩, ⟨10, 4⟩⟩,
                 ⟨⟨0, 5⟩, ⟨10, 5⟩⟩, ⟨⟨0, 6⟩, ⟨10, 6⟩⟩, ⟨⟨0, 7⟩, ⟨10, 7⟩⟩, ⟨⟨0, 8⟩, ⟨10, 8⟩⟩,
                 ⟨⟨0, 9⟩, ⟨10, 9⟩⟩],
                ⟨[⟨⟨0, 1⟩, ⟨10, 1⟩⟩, ⟨⟨0, 2⟩, ⟨10, 2⟩⟩, ⟨⟨0, 3⟩, ⟨10, 3⟩⟩, ⟨⟨0, 4⟩, ⟨10, 4⟩⟩,
                 ⟨⟨0, 5⟩, ⟨10, 5⟩⟩, ⟨⟨0, 6⟩, ⟨10, 6⟩⟩, ⟨⟨0, 7⟩, ⟨10, 7⟩⟩, ⟨⟨0, 8⟩, ⟨10, 8⟩⟩,
                 ⟨⟨0, 9⟩, ⟨10, 9⟩⟩]⟩)) := by
  constructor
  · intro T pts s hs hne
    obtain ⟨TL, BR, hTL, hBR⟩ := corners_exist pts hne
    obtain ⟨n, hn, hrun⟩ := hatchLines_horizontal T [] TL BR s hs
    refine ⟨TL, BR, hTL, hBR, n, hn, _, rfl, fun fuel hfuel => ?_⟩
    simp only [HatchGenerator.generateHatch, hTL, hBR, HatchGenerator.fresh, hrun fuel hfuel,
      List.nil_append, horizLine]
  · intro T
    norm_num [HatchGenerator.generateHatch, HatchGenerator.fresh, contoursPoints,
      findTopLeftCorner, findBottomRightCorner, hatchLines, horizLoop]

/-- Witness for C2: the general statement applied to the contour of `main` with
step 1 yields corners and a count. -/
theorem C2_horizontal_regime_witness :
    (0 : ℝ) < 1 ∧ (contoursPoints : List (Point_2 ℝ)) ≠ [] ∧ ∃ TL BR, findTopLeftCorner (contoursPoints : List (Point_2 ℝ)) = some TL ∧
      findBottomRightCorner (contoursPoints : List (Point_2 ℝ)) = some BR ∧
        ∃ n : ℕ, (∀ i : ℕ, 0 < i → (BR.y + i * (1 : ℝ) < TL.y ↔ i ≤ n)) ∧
          ∃ L : List (Line_2 ℝ),
            L = (List.range n).map (fun i : ℕ =>
              (⟨⟨TL.x, BR.y + (i + 1 : ℕ) * 1⟩, ⟨BR.x, BR.y + (i + 1 : ℕ) * 1⟩⟩ : Line_2 ℝ)) ∧
            ∀ fuel, n ≤ fuel →
              HatchGenerator.generateHatch ⟨Real.pi, Real.tan, Real.cos⟩ fuel
                HatchGenerator.fresh contoursPoints 0 1 = some (L, ⟨L⟩) :=
  ⟨by norm_num, by simp [contoursPoints],
    C2_horizontal_regime.1 ⟨Real.pi, Real.tan, Real.cos⟩ contoursPoints 1 (by norm_num)
      (by simp [contoursPoints])⟩

/-- C3 (segment clipping).  For every non-empty point list, every step > 0 and
every angle with `0 < angle < 90` or `90 < angle < 180`, the call of
`generateHatch` on a fresh engine returns (for some fuel) a list `L`, and both end
points of every line of `L` lie in the closed rectangle
`TL.x ≤ x ≤ BR.x`, `BR.y ≤ y ≤ TL.y`, where `TL` and `BR` are the corners
returned by `findTopLeftCorner` and `findBottomRightCorner`.  (Exact reals.) -/
theorem C3_segment_clipping (pts : List (Point_2 ℝ)) (angel step : ℝ) (hne : pts ≠ [])
    (hs : 0 < step) (hang : (0 < angel ∧ angel < 90) ∨ (90 < angel ∧ angel < 180)) :
    ∃ (TL BR : Point_2 ℝ) (L : List (Line_2 ℝ)),
      findTopLeftCorner pts = some TL ∧ findBottomRightCorner pts = some BR ∧
      (∃ fuel, HatchGenerator.generateHatch ⟨Real.pi, Real.tan, Real.cos⟩ fuel
          HatchGenerator.fresh pts angel step = some (L, ⟨L⟩)) ∧
      ∀ l ∈ L, inRect TL BR l.firstPoint ∧ inRect TL BR l.secondPoint := by
  obtain ⟨TL, BR, hTL, hBR⟩ := corners_exist pts hne
  obtain ⟨hx, hy⟩ := corners_ordered hTL hBR
  rcases hang with ⟨h1, h2⟩ | ⟨h1, h2⟩
  · have hsY := stepYAcute_pos h1 h2 hs
    have hk := (acute_trig h1 h2).1
    obtain ⟨n, L, _, hrun, hclip⟩ := sweepLoop_run
      (acuteClip TL BR (slopeK ⟨Real.pi, Real.tan, Real.cos⟩ angel))
      (TL.y - slopeK ⟨Real.pi, Real.tan, Real.cos⟩ angel * TL.x)
      (BR.y - slopeK ⟨Real.pi, Real.tan, Real.cos⟩ angel * BR.x) _ hsY
    refine ⟨TL, BR, L, hTL, hBR, ⟨n, ?_⟩, ?_⟩
    · rw [generateHatch_eq _ _ _ _ _ hTL hBR, hatchLines_acute _ _ _ _ _ _ h1 h2]
      simp [HatchGenerator.fresh, hrun]
    · intro l hl
      obtain ⟨i, hi, rfl⟩ := List.getElem_of_mem hl
      have hc := hclip i hi
      rw [List.getElem?_eq_getElem hi] at hc
      refine acuteClip_inRect hk hx hy ?_ hc
      have : (0 : ℝ) < ((i + 1 : ℕ) : ℝ) * stepYAcute ⟨Real.pi, Real.tan, Real.cos⟩ angel step :=
        mul_pos (by positivity) hsY
      linarith
  · have hsY := stepYObtuse_pos h1 h2 hs
    have hk := (obtuse_trig h1 h2).1
    obtain ⟨n, L, _, hrun, hclip⟩ := sweepLoop_run
      (obtuseClip TL BR (slopeK ⟨Real.pi, Real.tan, Real.cos⟩ angel))
      (TL.y - slopeK ⟨Real.pi, Real.tan, Real.cos⟩ angel * BR.x)
      (BR.y - slopeK ⟨Real.pi, Real.tan, Real.cos⟩ angel * TL.x) _ hsY
    refine ⟨TL, BR, L, hTL, hBR, ⟨n, ?_⟩, ?_⟩
    · rw [generateHatch_eq _ _ _ _ _ hTL hBR, hatchLines_obtuse _ _ _ _ _ _ h1 h2]
      simp [HatchGenerator.fresh, hrun]
    · intro l hl
      obtain ⟨i, hi, rfl⟩ := List.getElem_of_mem hl
      have hc := hclip i hi
      rw [List.getElem?_eq_getElem hi] at hc
      refine obtuseClip_inRect hk hx hy ?_ hc
      have : (0 : ℝ) < ((i + 1 : ℕ) : ℝ) * stepYObtuse ⟨Real.pi, Real.tan, Real.cos⟩ angel step :=
        mul_pos (by positivity) hsY
      linarith


/-- Witness for C3: the contour of `main`, angle 45, step 1. -/
theorem C3_segment_clipping_witness :
    (contoursPoints : List (Point_2 ℝ)) ≠ [] ∧ (0 : ℝ) < 1 ∧
    (((0 : ℝ) < 45 ∧ (45 : ℝ) < 90) ∨ ((90 : ℝ) < 45 ∧ (45 : ℝ) < 180)) ∧
    ∃ (TL BR : Point_2 ℝ) (L : List (Line_2 ℝ)),
      findTopLeftCorner contoursPoints = some TL ∧
      findBottomRightCorner contoursPoints = some BR ∧
      (∃ fuel, HatchGenerator.generateHatch ⟨Real.pi, Real.tan, Real.cos⟩ fuel
          HatchGenerator.fresh contoursPoints 45 1 = some (L, ⟨L⟩)) ∧
      ∀ l ∈ L, inRect TL BR l.firstPoint ∧ inRect TL BR l.secondPoint :=
  ⟨by simp [contoursPoints], by norm_num, Or.inl ⟨by norm_num, by norm_num⟩,
    C3_segment_clipping contoursPoints 45 1 (by simp [contoursPoints]) (by norm_num)
      (Or.inl ⟨by norm_num, by norm_num⟩)⟩

/-- C4 (corner extraction is not permutation-invariant).  The contour of `main`
listed from its top-right corner, `(10,10),(0,10),(0,0),(10,0)`, is a
permutation (a rotation) of the contour `(0,0),(10,0),(10,10),(0,10)`.  On the
original order the scans return the top-left corner `(0,10)` and the bottom-right
corner `(10,0)`; on the rotated order both `findTopLeftCorner` and
`findBottomRightCorner` return the top-right corner `(10,10)`. -/
theorem C4_corner_scan_order_dependent :
    ((contoursPoints : List (Point_2 ℝ)).rotate 2).Perm contoursPoints ∧
    (contoursPoints : List (Point_2 ℝ)).rotate 2 = [⟨10, 10⟩, ⟨0, 10⟩, ⟨0, 0⟩, ⟨10, 0⟩] ∧
    findTopLeftCorner (contoursPoints : List (Point_2 ℝ)) = some ⟨0, 10⟩ ∧
    findBottomRightCorner (contoursPoints : List (Point_2 ℝ)) = some ⟨10, 0⟩ ∧
    findTopLeftCorner ((contoursPoints : List (Point_2 ℝ)).rotate 2) = some ⟨10, 10⟩ ∧
    findBottomRightCorner ((contoursPoints : List (Point_2 ℝ)).rotate 2) = some ⟨10, 10⟩ := by
  have hrot : (contoursPoints : List (Point_2 ℝ)).rotate 2
      = [⟨10, 10⟩, ⟨0, 10⟩, ⟨0, 0⟩, ⟨10, 0⟩] := by
    simp [contoursPoints, List.rotate]
  refine ⟨List.rotate_perm _ _, hrot, main_corners.1, main_corners.2, ?_, ?_⟩
  · rw [hrot]
    norm_num [findTopLeftCorner]
  · rw [hrot]
    norm_num [findBottomRightCorner]

/-- C5 (perpendicular spacing).  With `k = tan(angle)` and `stepY` as computed by
the code (`step / cos(angle)` for `0 < angle < 90`, `step / cos(180 - angle)` for
`90 < angle < 180`), the perpendicular distance `stepY / sqrt(1 + k^2)` between
the consecutive hatch lines `y = k*x + b` and `y = k*x + (b - stepY)` equals
`step`; this holds for every step, in particular for every step > 0.  (Exact
reals, real `tan` and `cos`.) -/
theorem C5_perpendicular_spacing (angel step : ℝ) :
    ((0 < angel ∧ angel < 90) →
      stepYAcute ⟨Real.pi, Real.tan, Real.cos⟩ angel step
        / Real.sqrt (1 + slopeK ⟨Real.pi, Real.tan, Real.cos⟩ angel ^ 2) = step) ∧
    ((90 < angel ∧ angel < 180) →
      stepYObtuse ⟨Real.pi, Real.tan, Real.cos⟩ angel step
        / Real.sqrt (1 + slopeK ⟨Real.pi, Real.tan, Real.cos⟩ angel ^ 2) = step) := by
  constructor
  · rintro ⟨h1, h2⟩
    have hc := (acute_trig h1 h2).2
    simp only [stepYAcute, slopeK, degreesToRadians] at hc ⊢
    rw [one_add_tan_sq (ne_of_gt hc), Real.sqrt_sq (by positivity)]
    field_simp
  · rintro ⟨h1, h2⟩
    have hc := (obtuse_trig h1 h2).2
    simp only [stepYObtuse, slopeK, degreesToRadians] at hc ⊢
    rw [show (180 - angel) * Real.pi / 180 = Real.pi - angel * Real.pi / 180 by ring,
      Real.cos_pi_sub] at hc ⊢
    have hne : Real.cos (angel * Real.pi / 180) ≠ 0 := by
      intro h0
      rw [h0] at hc
      simp at hc
    rw [one_add_tan_sq hne,
      show (1 / Real.cos (angel * Real.pi / 180)) ^ 2
        = (1 / -Real.cos (angel * Real.pi / 180)) ^ 2 by
        rw [div_neg, neg_sq],
      Real.sqrt_sq (by positivity)]
    field_simp

/-- Witness for C5: angle 45 in the acute regime and angle 135 in the obtuse
regime, step 1. -/
theorem C5_perpendicular_spacing_witness :
    ((0 : ℝ) < 45 ∧ (45 : ℝ) < 90) ∧ ((90 : ℝ) < 135 ∧ (135 : ℝ) < 180) ∧
    stepYAcute ⟨Real.pi, Real.tan, Real.cos⟩ 45 1
      / Real.sqrt (1 + slopeK ⟨Real.pi, Real.tan, Real.cos⟩ 45 ^ 2) = 1 ∧
    stepYObtuse ⟨Real.pi, Real.tan, Real.cos⟩ 135 1
      / Real.sqrt (1 + slopeK ⟨Real.pi, Real.tan, Real.cos⟩ 135 ^ 2) = 1 :=
  ⟨⟨by norm_num, by norm_num⟩, ⟨by norm_num, by norm_num⟩,
    (C5_perpendicular_spacing 45 1).1 ⟨by norm_num, by norm_num⟩,
    (C5_perpendicular_spacing 135 1).2 ⟨by norm_num, by norm_num⟩⟩

/-- C6, counterexample (binary64).  The claim carries no proviso on the
arithmetic, and the program computes in `double`.  For the rectangle
`(1e17,0),(1e17+64,0),(1e17+64,64),(1e17,64)`, angle 45 and step 1 the program
has `b0 = -99999999999999920` and `stepY = 0x1.6a09e667f3bccp+0`, and
`b -= stepY` rounds back to `b0`.  Hence the intercept never decreases: after
two passes the member `hatch` holds the same line `((1e17,64),(1e17,64))` twice,
and after any number of passes the loop is still running with that line once per
pass, so a line is repeated and the call does not return.  Moreover the point
`(1e17,64)` cannot lie on both `y = k*x + (b0 - stepY)` and
`y = k*x + (b0 - 2*stepY)`. -/
theorem C6_binary64_counterexample :
    dSub 64 (dMul (libm45.tan (degreesToRadiansD libm45 45)) 100000000000000000)
      = -99999999999999920 ∧
    dDiv 1 (libm45.cos (degreesToRadiansD libm45 45))
      = 1592262918131443 / 1125899906842624 ∧
    dSub (-99999999999999920) (1592262918131443 / 1125899906842624) = -99999999999999920 ∧
    generateHatchD libm45 2 []
        [⟨100000000000000000, 0⟩, ⟨100000000000000064, 0⟩, ⟨100000000000000064, 64⟩,
          ⟨100000000000000000, 64⟩] 45 1
      = .running [⟨⟨100000000000000000, 64⟩, ⟨100000000000000000, 64⟩⟩,
          ⟨⟨100000000000000000, 64⟩, ⟨100000000000000000, 64⟩⟩] ∧
    (∀ fuel : ℕ,
      generateHatchD libm45 fuel []
        [⟨100000000000000000, 0⟩, ⟨100000000000000064, 0⟩, ⟨100000000000000064, 64⟩,
          ⟨100000000000000000, 64⟩] 45 1
      = .running
          (List.replicate fuel ⟨⟨100000000000000000, 64⟩, ⟨100000000000000000, 64⟩⟩)) ∧
    ¬ (onLine (9007199254740991 / 9007199254740992 : ℚ)
          (-99999999999999920 - 1 * (1592262918131443 / 1125899906842624))
          ⟨100000000000000000, 64⟩ ∧
        onLine (9007199254740991 / 9007199254740992 : ℚ)
          (-99999999999999920 - 2 * (1592262918131443 / 1125899906842624))
          ⟨100000000000000000, 64⟩) := by
  refine ⟨by decide!, by decide!, by decide!, by decide!, fun fuel => ?_, ?_⟩
  · have hTL : findTopLeftCorner ([⟨100000000000000000, 0⟩, ⟨100000000000000064, 0⟩,
        ⟨100000000000000064, 64⟩, ⟨100000000000000000, 64⟩] : List (Point_2 ℚ))
        = some ⟨100000000000000000, 64⟩ := by decide!
    have hBR : findBottomRightCorner ([⟨100000000000000000, 0⟩, ⟨100000000000000064, 0⟩,
        ⟨100000000000000064, 64⟩, ⟨100000000000000000, 64⟩] : List (Point_2 ℚ))
        = some ⟨100000000000000064, 0⟩ := by decide!
    have h45 : ¬ ((45 : ℚ) = 90) ∧ ¬ ((45 : ℚ) = 0) ∧ ((45 : ℚ) > 0 ∧ (45 : ℚ) < 90) := by
      norm_num
    simp only [generateHatchD, hTL, hBR, h45.1, h45.2.1, h45.2.2, if_true, if_false, and_self]
    have h := sweepLoopD_stall
      (acuteClipD ⟨100000000000000000, 64⟩ ⟨100000000000000064, 0⟩
        (libm45.tan (degreesToRadiansD libm45 45)))
      (dDiv 1 (libm45.cos (degreesToRadiansD libm45 45)))
      (dSub 0 (dMul (libm45.tan (degreesToRadiansD libm45 45)) 100000000000000064))
      (dSub 64 (dMul (libm45.tan (degreesToRadiansD libm45 45)) 100000000000000000))
      ⟨⟨100000000000000000, 64⟩, ⟨100000000000000000, 64⟩⟩
      (by decide!) (by decide!) (by decide!) fuel []
    simpa using h
  · simp only [onLine]
    rintro ⟨h1, h2⟩
    norm_num at h1

/-- C6, amended (monotonic sweep order, arithmetic read as exact reals).  For
every non-empty point list, every step > 0 and every angle in the acute regime
(`0 < angle < 90`) or the obtuse regime (`90 < angle < 180`), the call of
`generateHatch` on a fresh engine returns (for some fuel) a list `L` whose `i`-th
line, `i` counted from 1 (index `i - 1` of `L`), has both end points on the line
`y = k*x + (b0 - i*stepY)`, where `k = tan(angle)`, `b0 = TL.y - k*TL.x` in the
acute regime and `b0 = TL.y - k*BR.x` in the obtuse regime; `stepY` is positive,
so the intercepts of consecutive lines strictly decrease.  Nothing is claimed for
the program in `double`. -/
theorem C6_monotonic_sweep (pts : List (Point_2 ℝ)) (angel step : ℝ) (hne : pts ≠ [])
    (hs : 0 < step) :
    ((0 < angel ∧ angel < 90) →
      ∃ (TL BR : Point_2 ℝ) (L : List (Line_2 ℝ)),
        findTopLeftCorner pts = some TL ∧ findBottomRightCorner pts = some BR ∧
        (∃ fuel, HatchGenerator.generateHatch ⟨Real.pi, Real.tan, Real.cos⟩ fuel
            HatchGenerator.fresh pts angel step = some (L, ⟨L⟩)) ∧
        0 < stepYAcute ⟨Real.pi, Real.tan, Real.cos⟩ angel step ∧
        ∀ (i : ℕ) (l : Line_2 ℝ), L[i]? = some l →
          onLine (slopeK ⟨Real.pi, Real.tan, Real.cos⟩ angel)
            (TL.y - slopeK ⟨Real.pi, Real.tan, Real.cos⟩ angel * TL.x
              - (i + 1 : ℕ) * stepYAcute ⟨Real.pi, Real.tan, Real.cos⟩ angel step)
            l.firstPoint ∧
          onLine (slopeK ⟨Real.pi, Real.tan, Real.cos⟩ angel)
            (TL.y - slopeK ⟨Real.pi, Real.tan, Real.cos⟩ angel * TL.x
              - (i + 1 : ℕ) * stepYAcute ⟨Real.pi, Real.tan, Real.cos⟩ angel step)
            l.secondPoint) ∧
    ((90 < angel ∧ angel < 180) →
      ∃ (TL BR : Point_2 ℝ) (L : List (Line_2 ℝ)),
        findTopLeftCorner pts = some TL ∧ findBottomRightCorner pts = some BR ∧
        (∃ fuel, HatchGenerator.generateHatch ⟨Real.pi, Real.tan, Real.cos⟩ fuel
            HatchGenerator.fresh pts angel step = some (L, ⟨L⟩)) ∧
        0 < stepYObtuse ⟨Real.pi, Real.tan, Real.cos⟩ angel step ∧
        ∀ (i : ℕ) (l : Line_2 ℝ), L[i]? = some l →
          onLine (slopeK ⟨Real.pi, Real.tan, Real.cos⟩ angel)
            (TL.y - slopeK ⟨Real.pi, Real.tan, Real.cos⟩ angel * BR.x
              - (i + 1 : ℕ) * stepYObtuse ⟨Real.pi, Real.tan, Real.cos⟩ angel step)
            l.firstPoint ∧
          onLine (slopeK ⟨Real.pi, Real.tan, Real.cos⟩ angel)
            (TL.y - slopeK ⟨Real.pi, Real.tan, Real.cos⟩ angel * BR.x
              - (i + 1 : ℕ) * stepYObtuse ⟨Real.pi, Real.tan, Real.cos⟩ angel step)
            l.secondPoint) := by
  obtain ⟨TL, BR, hTL, hBR⟩ := corners_exist pts hne
  constructor
  · rintro ⟨h1, h2⟩
    have hsY := stepYAcute_pos h1 h2 hs
    have hk := (acute_trig h1 h2).1
    obtain ⟨n, L, _, hrun, hclip⟩ := sweepLoop_run
      (acuteClip TL BR (slopeK ⟨Real.pi, Real.tan, Real.cos⟩ angel))
      (TL.y - slopeK ⟨Real.pi, Real.tan, Real.cos⟩ angel * TL.x)
      (BR.y - slopeK ⟨Real.pi, Real.tan, Real.cos⟩ angel * BR.x) _ hsY
    refine ⟨TL, BR, L, hTL, hBR, ⟨n, ?_⟩, hsY, ?_⟩
    · rw [generateHatch_eq _ _ _ _ _ hTL hBR, hatchLines_acute _ _ _ _ _ _ h1 h2]
      simp [HatchGenerator.fresh, hrun]
    · intro i l hl
      have hi : i < L.length := by
        rcases Nat.lt_or_ge i L.length with h | h
        · exact h
        · rw [List.getElem?_eq_none h] at hl
          cases hl
      have hc := hclip i hi
      rw [hl] at hc
      exact acuteClip_onLine (ne_of_gt hk) hc
  · rintro ⟨h1, h2⟩
    have hsY := stepYObtuse_pos h1 h2 hs
    have hk := (obtuse_trig h1 h2).1
    obtain ⟨n, L, _, hrun, hclip⟩ := sweepLoop_run
      (obtuseClip TL BR (slopeK ⟨Real.pi, Real.tan, Real.cos⟩ angel))
      (TL.y - slopeK ⟨Real.pi, Real.tan, Real.cos⟩ angel * BR.x)
      (BR.y - slopeK ⟨Real.pi, Real.tan, Real.cos⟩ angel * TL.x) _ hsY
    refine ⟨TL, BR, L, hTL, hBR, ⟨n, ?_⟩, hsY, ?_⟩
    · rw [generateHatch_eq _ _ _ _ _ hTL hBR, hatchLines_obtuse _ _ _ _ _ _ h1 h2]
      simp [HatchGenerator.fresh, hrun]
    · intro i l hl
      have hi : i < L.length := by
        rcases Nat.lt_or_ge i L.length with h | h
        · exact h
        · rw [List.getElem?_eq_none h] at hl
          cases hl
      have hc := hclip i hi
      rw [hl] at hc
      exact obtuseClip_onLine (ne_of_lt hk) hc

/-- Witness for C6: the contour of `main` with step 1, at angle 45 (acute) and
at angle 135 (obtuse). -/
theorem C6_monotonic_sweep_witness :
    (contoursPoints : List (Point_2 ℝ)) ≠ [] ∧ (0 : ℝ) < 1 ∧
    ((0 : ℝ) < 45 ∧ (45 : ℝ) < 90) ∧ ((90 : ℝ) < 135 ∧ (135 : ℝ) < 180) ∧
    (∃ (TL BR : Point_2 ℝ) (L : List (Line_2 ℝ)),
        findTopLeftCorner contoursPoints = some TL ∧ findBottomRightCorner contoursPoints = some BR ∧
        (∃ fuel, HatchGenerator.generateHatch ⟨Real.pi, Real.tan, Real.cos⟩ fuel
            HatchGenerator.fresh contoursPoints 45 1 = some (L, ⟨L⟩)) ∧
        0 < stepYAcute ⟨Real.pi, Real.tan, Real.cos⟩ 45 1 ∧
        ∀ (i : ℕ) (l : Line_2 ℝ), L[i]? = some l →
          onLine (slopeK ⟨Real.pi, Real.tan, Real.cos⟩ 45)
            (TL.y - slopeK ⟨Real.pi, Real.tan, Real.cos⟩ 45 * TL.x
              - (i + 1 : ℕ) * stepYAcute ⟨Real.pi, Real.tan, Real.cos⟩ 45 1)
            l.firstPoint ∧
          onLine (slopeK ⟨Real.pi, Real.tan, Real.cos⟩ 45)
            (TL.y - slopeK ⟨Real.pi, Real.tan, Real.cos⟩ 45 * TL.x
              - (i + 1 : ℕ) * stepYAcute ⟨Real.pi, Real.tan, Real.cos⟩ 45 1)
            l.secondPoint) ∧
    (∃ (TL BR : Point_2 ℝ) (L : List (Line_2 ℝ)),
        findTopLeftCorner contoursPoints = some TL ∧ findBottomRightCorner contoursPoints = some BR ∧
        (∃ fuel, HatchGenerator.generateHatch ⟨Real.pi, Real.tan, Real.cos⟩ fuel
            HatchGenerator.fresh contoursPoints 135 1 = some (L, ⟨L⟩)) ∧
        0 < stepYObtuse ⟨Real.pi, Real.tan, Real.cos⟩ 135 1 ∧
        ∀ (i : ℕ) (l : Line_2 ℝ), L[i]? = some l →
          onLine (slopeK ⟨Real.pi, Real.tan, Real.cos⟩ 135)
            (TL.y - slopeK ⟨Real.pi, Real.tan, Real.cos⟩ 135 * BR.x
              - (i + 1 : ℕ) * stepYObtuse ⟨Real.pi, Real.tan, Real.cos⟩ 135 1)
            l.firstPoint ∧
          onLine (slopeK ⟨Real.pi, Real.tan, Real.cos⟩ 135)
            (TL.y - slopeK ⟨Real.pi, Real.tan, Real.cos⟩ 135 * BR.x
              - (i + 1 : ℕ) * stepYObtuse ⟨Real.pi, Real.tan, Real.cos⟩ 135 1)
            l.secondPoint) :=
  ⟨by simp [contoursPoints], by norm_num, ⟨by norm_num, by norm_num⟩,
    ⟨by norm_num, by norm_num⟩,
    (C6_monotonic_sweep contoursPoints 45 1 (by simp [contoursPoints]) (by norm_num)).1
      ⟨by norm_num, by norm_num⟩,
    (C6_monotonic_sweep contoursPoints 135 1 (by simp [contoursPoints]) (by norm_num)).2
      ⟨by norm_num, by norm_num⟩⟩

/-- C7, counterexample.  On the contour of `main` (corners `(0,10)` and `(10,0)`)
the lines at angle `180 - θ` are not the mirror image of the lines at angle `θ`
for `θ = 0`, step 5 (angle 0 gives the line `y = 5`, angle 180 gives nothing),
nor for `θ = 90`, step 3 (the lines `x = 3, 6, 9` are mirrored to
`x = 7, 4, 1`). -/
theorem C7_symmetry_counterexample :
    (HatchGenerator.generateHatch (⟨Real.pi, Real.tan, Real.cos⟩ : CMath ℝ) 1
        HatchGenerator.fresh contoursPoints 0 5
      = some ([⟨⟨0, 5⟩, ⟨10, 5⟩⟩], ⟨[⟨⟨0, 5⟩, ⟨10, 5⟩⟩]⟩) ∧
     HatchGenerator.generateHatch (⟨Real.pi, Real.tan, Real.cos⟩ : CMath ℝ) 1
        HatchGenerator.fresh contoursPoints (180 - 0) 5
      = some ([], ⟨[]⟩) ∧
     ¬ (∀ l : Line_2 ℝ, l ∈ ([] : List (Line_2 ℝ)) ↔
          ∃ l0 ∈ ([⟨⟨0, 5⟩, ⟨10, 5⟩⟩] : List (Line_2 ℝ)),
            l = mirrorLine ⟨0, 10⟩ ⟨10, 0⟩ l0)) ∧
    (HatchGenerator.generateHatch (⟨Real.pi, Real.tan, Real.cos⟩ : CMath ℝ) 3
        HatchGenerator.fresh contoursPoints 90 3
      = some ([⟨⟨3, 10⟩, ⟨3, 0⟩⟩, ⟨⟨6, 10⟩, ⟨6, 0⟩⟩, ⟨⟨9, 10⟩, ⟨9, 0⟩⟩],
          ⟨[⟨⟨3, 10⟩, ⟨3, 0⟩⟩, ⟨⟨6, 10⟩, ⟨6, 0⟩⟩, ⟨⟨9, 10⟩, ⟨9, 0⟩⟩]⟩) ∧
     HatchGenerator.generateHatch (⟨Real.pi, Real.tan, Real.cos⟩ : CMath ℝ) 3
        HatchGenerator.fresh contoursPoints (180 - 90) 3
      = some ([⟨⟨3, 10⟩, ⟨3, 0⟩⟩, ⟨⟨6, 10⟩, ⟨6, 0⟩⟩, ⟨⟨9, 10⟩, ⟨9, 0⟩⟩],
          ⟨[⟨⟨3, 10⟩, ⟨3, 0⟩⟩, ⟨⟨6, 10⟩, ⟨6, 0⟩⟩, ⟨⟨9, 10⟩, ⟨9, 0⟩⟩]⟩) ∧
     ¬ (∀ l : Line_2 ℝ,
          l ∈ ([⟨⟨3, 10⟩, ⟨3, 0⟩⟩, ⟨⟨6, 10⟩, ⟨6, 0⟩⟩, ⟨⟨9, 10⟩, ⟨9, 0⟩⟩] : List (Line_2 ℝ)) ↔
          ∃ l0 ∈ ([⟨⟨3, 10⟩, ⟨3, 0⟩⟩, ⟨⟨6, 10⟩, ⟨6, 0⟩⟩, ⟨⟨9, 10⟩, ⟨9, 0⟩⟩] : List (Line_2 ℝ)),
            l = mirrorLine ⟨0, 10⟩ ⟨10, 0⟩ l0)) := by
  refine ⟨⟨?_, ?_, ?_⟩, ⟨?_, ?_, ?_⟩⟩
  · norm_num [HatchGenerator.generateHatch, HatchGenerator.fresh, contoursPoints,
      findTopLeftCorner, findBottomRightCorner, hatchLines, horizLoop]
  · norm_num [HatchGenerator.generateHatch, HatchGenerator.fresh, contoursPoints,
      findTopLeftCorner, findBottomRightCorner, hatchLines]
  · intro h
    have := (h (mirrorLine ⟨0, 10⟩ ⟨10, 0⟩ ⟨⟨0, 5⟩, ⟨10, 5⟩⟩)).2 ⟨_, by simp, rfl⟩
    simp at this
  · norm_num [HatchGenerator.generateHatch, HatchGenerator.fresh, contoursPoints,
      findTopLeftCorner, findBottomRightCorner, hatchLines, vertLoop]
  · norm_num [HatchGenerator.generateHatch, HatchGenerator.fresh, contoursPoints,
      findTopLeftCorner, findBottomRightCorner, hatchLines, vertLoop]
  · intro h
    have := (h (mirrorLine ⟨0, 10⟩ ⟨10, 0⟩ ⟨⟨3, 10⟩, ⟨3, 0⟩⟩)).2 ⟨_, by simp, rfl⟩
    norm_num [mirrorLine, mirrorPoint] at this

/-- C7, amended (symmetry in the diagonal regimes).  For every angle `θ` with
`0 < θ < 90` or `90 < θ < 180`, every step > 0 and every non-empty point list
with corners `TL` and `BR`, the calls of `generateHatch` on a fresh engine at
angle `θ` and at angle `180 - θ` both return, and the set of lines returned at
`180 - θ` is the image of the set returned at `θ` under the reflection
`x ↦ TL.x + BR.x - x` applied to both end points.  (Exact reals.) -/
theorem C7_symmetry_diagonal (pts : List (Point_2 ℝ)) (angel step : ℝ) (hne : pts ≠ [])
    (hs : 0 < step) (hang : (0 < angel ∧ angel < 90) ∨ (90 < angel ∧ angel < 180)) :
    ∃ (TL BR : Point_2 ℝ) (L L2 : List (Line_2 ℝ)),
      findTopLeftCorner pts = some TL ∧ findBottomRightCorner pts = some BR ∧
      (∃ fuel, HatchGenerator.generateHatch ⟨Real.pi, Real.tan, Real.cos⟩ fuel
          HatchGenerator.fresh pts angel step = some (L, ⟨L⟩)) ∧
      (∃ fuel, HatchGenerator.generateHatch ⟨Real.pi, Real.tan, Real.cos⟩ fuel
          HatchGenerator.fresh pts (180 - angel) step = some (L2, ⟨L2⟩)) ∧
      ∀ l : Line_2 ℝ, l ∈ L2 ↔ ∃ l0 ∈ L, l = mirrorLine TL BR l0 := by
  obtain ⟨TL, BR, hTL, hBR⟩ := corners_exist pts hne
  rcases hang with ⟨h1, h2⟩ | ⟨h1, h2⟩
  · have hsY := stepYAcute_pos h1 h2 hs
    obtain ⟨n, L, _, hrun, _⟩ := sweepLoop_run
      (acuteClip TL BR (slopeK ⟨Real.pi, Real.tan, Real.cos⟩ angel))
      (TL.y - slopeK ⟨Real.pi, Real.tan, Real.cos⟩ angel * TL.x)
      (BR.y - slopeK ⟨Real.pi, Real.tan, Real.cos⟩ angel * BR.x) _ hsY
    have hA : hatchLines ⟨Real.pi, Real.tan, Real.cos⟩ n [] TL BR angel step = some L := by
      rw [hatchLines_acute _ _ _ _ _ _ h1 h2, hrun]
    refine ⟨TL, BR, L, L.map (mirrorLine TL BR), hTL, hBR, ⟨n, ?_⟩, ⟨n, ?_⟩, ?_⟩
    · rw [generateHatch_eq _ _ _ _ _ hTL hBR]
      simp [HatchGenerator.fresh, hA]
    · rw [generateHatch_eq _ _ _ _ _ hTL hBR]
      simp only [HatchGenerator.fresh]
      rw [hatchLines_supplement n TL BR step h1 h2, hA]
      rfl
    · intro l
      simp only [List.mem_map]
      constructor
      · rintro ⟨l0, hl0, rfl⟩
        exact ⟨l0, hl0, rfl⟩
      · rintro ⟨l0, hl0, rfl⟩
        exact ⟨l0, hl0, rfl⟩
  · have h1s : 0 < 180 - angel := by linarith
    have h2s : 180 - angel < 90 := by linarith
    have hsY := stepYAcute_pos h1s h2s hs
    obtain ⟨n, L2, _, hrun, _⟩ := sweepLoop_run
      (acuteClip TL BR (slopeK ⟨Real.pi, Real.tan, Real.cos⟩ (180 - angel)))
      (TL.y - slopeK ⟨Real.pi, Real.tan, Real.cos⟩ (180 - angel) * TL.x)
      (BR.y - slopeK ⟨Real.pi, Real.tan, Real.cos⟩ (180 - angel) * BR.x) _ hsY
    have hA : hatchLines ⟨Real.pi, Real.tan, Real.cos⟩ n [] TL BR (180 - angel) step
        = some L2 := by
      rw [hatchLines_acute _ _ _ _ _ _ h1s h2s, hrun]
    refine ⟨TL, BR, L2.map (mirrorLine TL BR), L2, hTL, hBR, ⟨n, ?_⟩, ⟨n, ?_⟩, ?_⟩
    · rw [generateHatch_eq _ _ _ _ _ hTL hBR]
      simp only [HatchGenerator.fresh]
      have hsup := hatchLines_supplement n TL BR step h1s h2s
      rw [sub_sub_cancel] at hsup
      rw [hsup, hA]
      rfl
    · rw [generateHatch_eq _ _ _ _ _ hTL hBR]
      simp [HatchGenerator.fresh, hA]
    · intro l
      constructor
      · intro hl
        exact ⟨mirrorLine TL BR l, List.mem_map.mpr ⟨l, hl, rfl⟩,
          (mirrorLine_involutive TL BR l).symm⟩
      · rintro ⟨l0, hl0, rfl⟩
        obtain ⟨l1, hl1, rfl⟩ := List.mem_map.mp hl0
        rw [mirrorLine_involutive]
        exact hl1


/-- Witness for the amended C7: the contour of `main`, angle 45, step 1. -/
theorem C7_symmetry_diagonal_witness :
    (contoursPoints : List (Point_2 ℝ)) ≠ [] ∧ (0 : ℝ) < 1 ∧
    (((0 : ℝ) < 45 ∧ (45 : ℝ) < 90) ∨ ((90 : ℝ) < 45 ∧ (45 : ℝ) < 180)) ∧
    ∃ (TL BR : Point_2 ℝ) (L L2 : List (Line_2 ℝ)),
      findTopLeftCorner contoursPoints = some TL ∧
      findBottomRightCorner contoursPoints = some BR ∧
      (∃ fuel, HatchGenerator.generateHatch ⟨Real.pi, Real.tan, Real.cos⟩ fuel
          HatchGenerator.fresh contoursPoints 45 1 = some (L, ⟨L⟩)) ∧
      (∃ fuel, HatchGenerator.generateHatch ⟨Real.pi, Real.tan, Real.cos⟩ fuel
          HatchGenerator.fresh contoursPoints (180 - 45) 1 = some (L2, ⟨L2⟩)) ∧
      ∀ l : Line_2 ℝ, l ∈ L2 ↔ ∃ l0 ∈ L, l = mirrorLine TL BR l0 :=
  ⟨by simp [contoursPoints], by norm_num, Or.inl ⟨by norm_num, by norm_num⟩,
    C7_symmetry_diagonal contoursPoints 45 1 (by simp [contoursPoints]) (by norm_num)
      (Or.inl ⟨by norm_num, by norm_num⟩)⟩

/-- C8 (termination of the diagonal sweeps).  For every non-empty point list,
every step > 0 and every angle with `0 < angle < 90` or `90 < angle < 180`,
`stepY` is positive and the `while` loop of `generateHatch` terminates: with `n`
the least natural number such that `b0 - n*stepY ≤ maxB`, a fuel of `n` passes of
the loop body is enough for the call to return, so the loop body runs at most
`n` times.  (Exact reals.) -/
theorem C8_sweep_termination (pts : List (Point_2 ℝ)) (angel step : ℝ) (hne : pts ≠ [])
    (hs : 0 < step) :
    ((0 < angel ∧ angel < 90) →
      ∃ (TL BR : Point_2 ℝ) (n : ℕ) (L : List (Line_2 ℝ)),
        findTopLeftCorner pts = some TL ∧ findBottomRightCorner pts = some BR ∧
        0 < stepYAcute ⟨Real.pi, Real.tan, Real.cos⟩ angel step ∧
        (TL.y - slopeK ⟨Real.pi, Real.tan, Real.cos⟩ angel * TL.x
            - n * stepYAcute ⟨Real.pi, Real.tan, Real.cos⟩ angel step
          ≤ BR.y - slopeK ⟨Real.pi, Real.tan, Real.cos⟩ angel * BR.x) ∧
        (∀ m : ℕ, m < n →
          ¬ (TL.y - slopeK ⟨Real.pi, Real.tan, Real.cos⟩ angel * TL.x
              - m * stepYAcute ⟨Real.pi, Real.tan, Real.cos⟩ angel step
            ≤ BR.y - slopeK ⟨Real.pi, Real.tan, Real.cos⟩ angel * BR.x)) ∧
        HatchGenerator.generateHatch ⟨Real.pi, Real.tan, Real.cos⟩ n
          HatchGenerator.fresh pts angel step = some (L, ⟨L⟩)) ∧
    ((90 < angel ∧ angel < 180) →
      ∃ (TL BR : Point_2 ℝ) (n : ℕ) (L : List (Line_2 ℝ)),
        findTopLeftCorner pts = some TL ∧ findBottomRightCorner pts = some BR ∧
        0 < stepYObtuse ⟨Real.pi, Real.tan, Real.cos⟩ angel step ∧
        (TL.y - slopeK ⟨Real.pi, Real.tan, Real.cos⟩ angel * BR.x
            - n * stepYObtuse ⟨Real.pi, Real.tan, Real.cos⟩ angel step
          ≤ BR.y - slopeK ⟨Real.pi, Real.tan, Real.cos⟩ angel * TL.x) ∧
        (∀ m : ℕ, m < n →
          ¬ (TL.y - slopeK ⟨Real.pi, Real.tan, Real.cos⟩ angel * BR.x
              - m * stepYObtuse ⟨Real.pi, Real.tan, Real.cos⟩ angel step
            ≤ BR.y - slopeK ⟨Real.pi, Real.tan, Real.cos⟩ angel * TL.x)) ∧
        HatchGenerator.generateHatch ⟨Real.pi, Real.tan, Real.cos⟩ n
          HatchGenerator.fresh pts angel step = some (L, ⟨L⟩)) := by
  obtain ⟨TL, BR, hTL, hBR⟩ := corners_exist pts hne
  constructor
  · rintro ⟨h1, h2⟩
    have hsY := stepYAcute_pos h1 h2 hs
    obtain ⟨n, L, ⟨hn, hmin⟩, hrun, _⟩ := sweepLoop_run
      (acuteClip TL BR (slopeK ⟨Real.pi, Real.tan, Real.cos⟩ angel))
      (TL.y - slopeK ⟨Real.pi, Real.tan, Real.cos⟩ angel * TL.x)
      (BR.y - slopeK ⟨Real.pi, Real.tan, Real.cos⟩ angel * BR.x) _ hsY
    refine ⟨TL, BR, n, L, hTL, hBR, hsY, hn, fun m hm => not_le.mpr (hmin m hm), ?_⟩
    rw [generateHatch_eq _ _ _ _ _ hTL hBR, hatchLines_acute _ _ _ _ _ _ h1 h2]
    simp [HatchGenerator.fresh, hrun]
  · rintro ⟨h1, h2⟩
    have hsY := stepYObtuse_pos h1 h2 hs
    obtain ⟨n, L, ⟨hn, hmin⟩, hrun, _⟩ := sweepLoop_run
      (obtuseClip TL BR (slopeK ⟨Real.pi, Real.tan, Real.cos⟩ angel))
      (TL.y - slopeK ⟨Real.pi, Real.tan, Real.cos⟩ angel * BR.x)
      (BR.y - slopeK ⟨Real.pi, Real.tan, Real.cos⟩ angel * TL.x) _ hsY
    refine ⟨TL, BR, n, L, hTL, hBR, hsY, hn, fun m hm => not_le.mpr (hmin m hm), ?_⟩
    rw [generateHatch_eq _ _ _ _ _ hTL hBR, hatchLines_obtuse _ _ _ _ _ _ h1 h2]
    simp [HatchGenerator.fresh, hrun]

/-- Witness for C8: the contour of `main` with step 1, at angle 45 (acute) and
at angle 135 (obtuse). -/
theorem C8_sweep_termination_witness :
    (contoursPoints : List (Point_2 ℝ)) ≠ [] ∧ (0 : ℝ) < 1 ∧
    ((0 : ℝ) < 45 ∧ (45 : ℝ) < 90) ∧ ((90 : ℝ) < 135 ∧ (135 : ℝ) < 180) ∧
    (∃ (TL BR : Point_2 ℝ) (n : ℕ) (L : List (Line_2 ℝ)),
        findTopLeftCorner contoursPoints = some TL ∧ findBottomRightCorner contoursPoints = some BR ∧
        0 < stepYAcute ⟨Real.pi, Real.tan, Real.cos⟩ 45 1 ∧
        (TL.y - slopeK ⟨Real.pi, Real.tan, Real.cos⟩ 45 * TL.x
            - n * stepYAcute ⟨Real.pi, Real.tan, Real.cos⟩ 45 1
          ≤ BR.y - slopeK ⟨Real.pi, Real.tan, Real.cos⟩ 45 * BR.x) ∧
        (∀ m : ℕ, m < n →
          ¬ (TL.y - slopeK ⟨Real.pi, Real.tan, Real.cos⟩ 45 * TL.x
              - m * stepYAcute ⟨Real.pi, Real.tan, Real.cos⟩ 45 1
            ≤ BR.y - slopeK ⟨Real.pi, Real.tan, Real.cos⟩ 45 * BR.x)) ∧
        HatchGenerator.generateHatch ⟨Real.pi, Real.tan, Real.cos⟩ n
          HatchGenerator.fresh contoursPoints 45 1 = some (L, ⟨L⟩)) ∧
    (∃ (TL BR : Point_2 ℝ) (n : ℕ) (L : List (Line_2 ℝ)),
        findTopLeftCorner contoursPoints = some TL ∧ findBottomRightCorner contoursPoints = some BR ∧
        0 < stepYObtuse ⟨Real.pi, Real.tan, Real.cos⟩ 135 1 ∧
        (TL.y - slopeK ⟨Real.pi, Real.tan, Real.cos⟩ 135 * BR.x
            - n * stepYObtuse ⟨Real.pi, Real.tan, Real.cos⟩ 135 1
          ≤ BR.y - slopeK ⟨Real.pi, Real.tan, Real.cos⟩ 135 * TL.x) ∧
        (∀ m : ℕ, m < n →
          ¬ (TL.y - slopeK ⟨Real.pi, Real.tan, Real.cos⟩ 135 * BR.x
              - m * stepYObtuse ⟨Real.pi, Real.tan, Real.cos⟩ 135 1
            ≤ BR.y - slopeK ⟨Real.pi, Real.tan, Real.cos⟩ 135 * TL.x)) ∧
        HatchGenerator.generateHatch ⟨Real.pi, Real.tan, Real.cos⟩ n
          HatchGenerator.fresh contoursPoints 135 1 = some (L, ⟨L⟩)) :=
  ⟨by simp [contoursPoints], by norm_num, ⟨by norm_num, by norm_num⟩,
    ⟨by norm_num, by norm_num⟩,
    (C8_sweep_termination contoursPoints 45 1 (by simp [contoursPoints]) (by norm_num)).1
      ⟨by norm_num, by norm_num⟩,
    (C8_sweep_termination contoursPoints 135 1 (by simp [contoursPoints]) (by norm_num)).2
      ⟨by norm_num, by norm_num⟩⟩

/-- C9 (the 45-degree scenario).  For the contour of `main`, angle 45 and step 1
the slope is `k = 1` and the intercept step is `stepY = sqrt 2`; `generateHatch`
on a fresh engine (with any fuel of at least 15 passes: 14 emitting passes and
the pass that breaks) returns exactly 14 lines, the `i`-th (from 1) being
`((i*sqrt 2, 10), (0, 10 - i*sqrt 2))` for `i = 1..7` and
`((10, 20 - i*sqrt 2), (i*sqrt 2 - 10, 0))` for `i = 8..14`; both end points of
the `i`-th line lie on `y = x + 10 - i*sqrt 2`, a line of slope 1. -/
theorem C9_scenario_45 :
    slopeK ⟨Real.pi, Real.tan, Real.cos⟩ 45 = 1 ∧
    stepYAcute ⟨Real.pi, Real.tan, Real.cos⟩ 45 1 = Real.sqrt 2 ∧
    ((List.range 14).map (fun i : ℕ =>
        if i + 1 ≤ 7 then
          (⟨⟨(i + 1 : ℕ) * Real.sqrt 2, 10⟩, ⟨0, 10 - (i + 1 : ℕ) * Real.sqrt 2⟩⟩ : Line_2 ℝ)
        else ⟨⟨10, 20 - (i + 1 : ℕ) * Real.sqrt 2⟩, ⟨(i + 1 : ℕ) * Real.sqrt 2 - 10, 0⟩⟩)).length
      = 14 ∧
    (∀ j : ℕ,
      HatchGenerator.generateHatch ⟨Real.pi, Real.tan, Real.cos⟩ (15 + j)
          HatchGenerator.fresh contoursPoints 45 1
        = some
          ((List.range 14).map (fun i : ℕ =>
            if i + 1 ≤ 7 then
              (⟨⟨(i + 1 : ℕ) * Real.sqrt 2, 10⟩, ⟨0, 10 - (i + 1 : ℕ) * Real.sqrt 2⟩⟩ : Line_2 ℝ)
            else ⟨⟨10, 20 - (i + 1 : ℕ) * Real.sqrt 2⟩, ⟨(i + 1 : ℕ) * Real.sqrt 2 - 10, 0⟩⟩),
           ⟨(List.range 14).map (fun i : ℕ =>
            if i + 1 ≤ 7 then
              (⟨⟨(i + 1 : ℕ) * Real.sqrt 2, 10⟩, ⟨0, 10 - (i + 1 : ℕ) * Real.sqrt 2⟩⟩ : Line_2 ℝ)
            else
              ⟨⟨10, 20 - (i + 1 : ℕ) * Real.sqrt 2⟩, ⟨(i + 1 : ℕ) * Real.sqrt 2 - 10, 0⟩⟩)⟩)) ∧
    (∀ i : ℕ,
      onLine (1 : ℝ) (10 - (i + 1 : ℕ) * Real.sqrt 2)
        (if i + 1 ≤ 7 then
          (⟨⟨(i + 1 : ℕ) * Real.sqrt 2, 10⟩, ⟨0, 10 - (i + 1 : ℕ) * Real.sqrt 2⟩⟩ : Line_2 ℝ)
        else ⟨⟨10, 20 - (i + 1 : ℕ) * Real.sqrt 2⟩,
          ⟨(i + 1 : ℕ) * Real.sqrt 2 - 10, 0⟩⟩).firstPoint ∧
      onLine (1 : ℝ) (10 - (i + 1 : ℕ) * Real.sqrt 2)
        (if i + 1 ≤ 7 then
          (⟨⟨(i + 1 : ℕ) * Real.sqrt 2, 10⟩, ⟨0, 10 - (i + 1 : ℕ) * Real.sqrt 2⟩⟩ : Line_2 ℝ)
        else ⟨⟨10, 20 - (i + 1 : ℕ) * Real.sqrt 2⟩,
          ⟨(i + 1 : ℕ) * Real.sqrt 2 - 10, 0⟩⟩).secondPoint) := by
  obtain ⟨hlo, hhi⟩ := sqrt_two_bounds
  refine ⟨slopeK_45, by rw [stepYAcute_45, one_mul], by simp, fun j => ?_, fun i => ?_⟩
  · have key := sweepLoop_closed (acuteClip (⟨0, 10⟩ : Point_2 ℝ) ⟨10, 0⟩ 1) (1 * Real.sqrt 2)
      ((0 : ℝ) - 1 * 10) 14 (15 + j) ((10 : ℝ) - 1 * 0) []
      (fun i : ℕ =>
        if i + 1 ≤ 7 then
          (⟨⟨(i + 1 : ℕ) * Real.sqrt 2, 10⟩, ⟨0, 10 - (i + 1 : ℕ) * Real.sqrt 2⟩⟩ : Line_2 ℝ)
        else ⟨⟨10, 20 - (i + 1 : ℕ) * Real.sqrt 2⟩, ⟨(i + 1 : ℕ) * Real.sqrt 2 - 10, 0⟩⟩)
      (fun i hi => by
        have hi1 : (i : ℝ) ≤ 13 := by exact_mod_cast Nat.le_of_lt_succ hi
        have hi0 : (0 : ℝ) ≤ i := Nat.cast_nonneg i
        have e : (10 : ℝ) - 1 * 0 - ((i + 1 : ℕ) : ℝ) * (1 * Real.sqrt 2)
            = 10 - ((i + 1 : ℕ) : ℝ) * Real.sqrt 2 := by ring
        refine ⟨by nlinarith, ?_⟩
        rw [e]
        by_cases h7 : i + 1 ≤ 7
        · have h7r : ((i + 1 : ℕ) : ℝ) ≤ 7 := by exact_mod_cast h7
          have h1r : (1 : ℝ) ≤ ((i + 1 : ℕ) : ℝ) := by exact_mod_cast Nat.succ_pos i
          simp only [if_pos h7]
          exact (acuteClip_main _).1 (by nlinarith) (by nlinarith)
        · have h8r : (8 : ℝ) ≤ ((i + 1 : ℕ) : ℝ) := by exact_mod_cast (by omega : 8 ≤ i + 1)
          have h14r : ((i + 1 : ℕ) : ℝ) ≤ 14 := by exact_mod_cast (by omega : i + 1 ≤ 14)
          simp only [if_neg h7]
          exact (acuteClip_main _).2.1 (by nlinarith) (by nlinarith))
      (Or.inr ⟨by norm_num; nlinarith, by
        have e : (10 : ℝ) - 1 * 0 - ((14 + 1 : ℕ) : ℝ) * (1 * Real.sqrt 2)
            = 10 - 15 * Real.sqrt 2 := by push_cast; ring
        rw [e]
        exact (acuteClip_main _).2.2 (by nlinarith), by omega⟩)
    rw [generateHatch_eq _ _ _ _ _ main_corners.1 main_corners.2,
      hatchLines_acute _ _ _ _ _ _ (by norm_num) (by norm_num), slopeK_45, stepYAcute_45]
    simp only [HatchGenerator.fresh]
    rw [key]
    rfl
  · by_cases h7 : i + 1 ≤ 7
    · simp only [if_pos h7, onLine]
      constructor <;> ring
    · simp only [if_neg h7, onLine]
      constructor <;> ring

/-- C10 (the accumulator is never reset).  A call of `generateHatch` on an engine
whose list is `h` behaves as the same call on a fresh engine with `h` put in
front: it returns (with the same fuel) exactly when the fresh call returns, the
returned list and the list left in the engine are both `h` followed by the
lines of the fresh call, so `h` stays an unchanged prefix.  In particular a
second call on the engine left by a first call returns the lines of the first
call followed by those the second call produces on a fresh engine. -/
theorem C10_accumulator_never_reset {K : Type} [LinearOrderedField K] (T : CMath K)
    (fuel : Nat) (h : List (Line_2 K)) (pts : List (Point_2 K)) (angel step : K) :
    HatchGenerator.generateHatch T fuel ⟨h⟩ pts angel step
        = (HatchGenerator.generateHatch T fuel HatchGenerator.fresh pts angel step).map
            (fun r => (h ++ r.1, ⟨h ++ r.1⟩)) ∧
    (∀ (L : List (Line_2 K)) (e : HatchGenerator K),
      HatchGenerator.generateHatch T fuel HatchGenerator.fresh pts angel step = some (L, e) →
      HatchGenerator.generateHatch T fuel ⟨h⟩ pts angel step = some (h ++ L, ⟨h ++ L⟩)) ∧
    (∀ (fuel2 : Nat) (pts2 : List (Point_2 K)) (angel2 step2 : K)
        (L1 L2 : List (Line_2 K)) (e1 e2 : HatchGenerator K),
      HatchGenerator.generateHatch T fuel HatchGenerator.fresh pts angel step = some (L1, e1) →
      HatchGenerator.generateHatch T fuel2 HatchGenerator.fresh pts2 angel2 step2
        = some (L2, e2) →
      HatchGenerator.generateHatch T fuel2 e1 pts2 angel2 step2
        = some (L1 ++ L2, ⟨L1 ++ L2⟩)) := by
  refine ⟨generateHatch_append T fuel h pts angel step, ?_, ?_⟩
  · intro L e hrun
    rw [generateHatch_append, hrun]
    rfl
  · intro fuel2 pts2 angel2 step2 L1 L2 e1 e2 hrun1 hrun2
    rw [generateHatch_state T fuel _ pts angel step L1 e1 hrun1, generateHatch_append, hrun2]
    rfl

/-- Witness for C10: a call at angle 90, step 5 on an engine holding one line, and
a call at angle 0 after a call at angle 90 on the contour of `main`. -/
theorem C10_accumulator_never_reset_witness :
    HatchGenerator.generateHatch (⟨Real.pi, Real.tan, Real.cos⟩ : CMath ℝ) 1
        ⟨[⟨⟨7, 7⟩, ⟨8, 8⟩⟩]⟩ contoursPoints 90 5
      = some ([⟨⟨7, 7⟩, ⟨8, 8⟩⟩, ⟨⟨5, 10⟩, ⟨5, 0⟩⟩], ⟨[⟨⟨7, 7⟩, ⟨8, 8⟩⟩, ⟨⟨5, 10⟩, ⟨5, 0⟩⟩]⟩) ∧
    HatchGenerator.generateHatch (⟨Real.pi, Real.tan, Real.cos⟩ : CMath ℝ) 1
        ⟨[⟨⟨5, 10⟩, ⟨5, 0⟩⟩]⟩ contoursPoints 0 5
      = some ([⟨⟨5, 10⟩, ⟨5, 0⟩⟩, ⟨⟨0, 5⟩, ⟨10, 5⟩⟩], ⟨[⟨⟨5, 10⟩, ⟨5, 0⟩⟩, ⟨⟨0, 5⟩, ⟨10, 5⟩⟩]⟩) :=
  ⟨(C10_accumulator_never_reset ⟨Real.pi, Real.tan, Real.cos⟩ 1 [⟨⟨7, 7⟩, ⟨8, 8⟩⟩]
      contoursPoints 90 5).2.1 [⟨⟨5, 10⟩, ⟨5, 0⟩⟩] ⟨[⟨⟨5, 10⟩, ⟨5, 0⟩⟩]⟩
      (by norm_num [HatchGenerator.generateHatch, HatchGenerator.fresh, contoursPoints,
        findTopLeftCorner, findBottomRightCorner, hatchLines, vertLoop]),
   (C10_accumulator_never_reset ⟨Real.pi, Real.tan, Real.cos⟩ 1 []
      contoursPoints 90 5).2.2 1 contoursPoints 0 5 [⟨⟨5, 10⟩, ⟨5, 0⟩⟩] [⟨⟨0, 5⟩, ⟨10, 5⟩⟩]
      ⟨[⟨⟨5, 10⟩, ⟨5, 0⟩⟩]⟩ ⟨[⟨⟨0, 5⟩, ⟨10, 5⟩⟩]⟩
      (by norm_num [HatchGenerator.generateHatch, HatchGenerator.fresh, contoursPoints,
        findTopLeftCorner, findBottomRightCorner, hatchLines, vertLoop])
      (by norm_num [HatchGenerator.generateHatch, HatchGenerator.fresh, contoursPoints,
        findTopLeftCorner, findBottomRightCorner, hatchLines, horizLoop])⟩

/-- C11 (angle 180 is unhandled).  The value 180 satisfies none of the four
branch conditions of `generateHatch` (`== 90`, `== 0`, `0 < angel < 90`,
`90 < angel < 180`); for every non-empty point list, every step and every fuel
the call with angle exactly 180 adds no line: it returns the list `h` the engine
already holds and leaves it in the engine, so on a fresh engine it returns the
empty list. -/
theorem C11_angle_180_unhandled (T : CMath ℝ) (fuel : ℕ) (h : List (Line_2 ℝ))
    (pts : List (Point_2 ℝ)) (step : ℝ) (hne : pts ≠ []) :
    (¬ ((180 : ℝ) = 90) ∧ ¬ ((180 : ℝ) = 0) ∧ ¬ ((180 : ℝ) > 0 ∧ (180 : ℝ) < 90) ∧
      ¬ ((180 : ℝ) > 90 ∧ (180 : ℝ) < 180)) ∧
    HatchGenerator.generateHatch T fuel ⟨h⟩ pts 180 step = some (h, ⟨h⟩) ∧
    HatchGenerator.generateHatch T fuel HatchGenerator.fresh pts 180 step = some ([], ⟨[]⟩) := by
  obtain ⟨TL, BR, hTL, hBR⟩ := corners_exist pts hne
  refine ⟨by norm_num, ?_, ?_⟩
  · rw [generateHatch_eq _ _ _ _ _ hTL hBR]
    norm_num [hatchLines]
  · rw [generateHatch_eq _ _ _ _ _ hTL hBR]
    norm_num [hatchLines, HatchGenerator.fresh]

/-- Witness for C11: the contour of `main` on a fresh engine, step 1, no fuel. -/
theorem C11_angle_180_unhandled_witness :
    (contoursPoints : List (Point_2 ℝ)) ≠ [] ∧
    HatchGenerator.generateHatch (⟨Real.pi, Real.tan, Real.cos⟩ : CMath ℝ) 0
      HatchGenerator.fresh contoursPoints 180 1 = some ([], ⟨[]⟩) :=
  ⟨by simp [contoursPoints],
    (C11_angle_180_unhandled ⟨Real.pi, Real.tan, Real.cos⟩ 0 [] contoursPoints 1
      (by simp [contoursPoints])).2.2⟩

/-- C12 (`findTopLeftCorner` returns an undominated point).  For every non-empty
point list the function returns a point `r` that is an element of the list, and
no element `p` of the list has both `p.y > r.y` and `p.x ≤ r.x`. -/
theorem C12_topLeft_undominated (pts : List (Point_2 ℝ)) (hne : pts ≠ []) :
    ∃ r : Point_2 ℝ, findTopLeftCorner pts = some r ∧ r ∈ pts ∧
      ∀ p ∈ pts, ¬ (p.y > r.y ∧ p.x ≤ r.x) := by
  cases pts with
  | nil => exact absurd rfl hne
  | cons p rest =>
    obtain ⟨hmem, hund⟩ := foldl_topLeft_undominated rest p
    obtain ⟨hx, hy⟩ := foldl_topLeft_bounds rest p
    refine ⟨_, rfl, hmem, ?_⟩
    intro q hq
    rcases List.mem_cons.mp hq with rfl | hq
    · rintro ⟨h1, _⟩
      exact absurd h1 (not_lt.mpr hy)
    · exact hund q hq

/-- Witness for C12: the contour of `main`. -/
theorem C12_topLeft_undominated_witness :
    (contoursPoints : List (Point_2 ℝ)) ≠ [] ∧
    ∃ r : Point_2 ℝ, findTopLeftCorner (contoursPoints : List (Point_2 ℝ)) = some r ∧
      r ∈ (contoursPoints : List (Point_2 ℝ)) ∧
      ∀ p ∈ (contoursPoints : List (Point_2 ℝ)), ¬ (p.y > r.y ∧ p.x ≤ r.x) :=
  ⟨by simp [contoursPoints], C12_topLeft_undominated contoursPoints (by simp [contoursPoints])⟩

/-- C13 (bounds invariant).  For every non-empty point list, in any order and
whether or not it is a rectangle, the corners `TL = findTopLeftCorner(points)`
and `BR = findBottomRightCorner(points)` satisfy `TL.y ≥ BR.y` and
`TL.x ≤ BR.x`. -/
theorem C13_bounds_invariant (pts : List (Point_2 ℝ)) (hne : pts ≠ []) :
    ∃ TL BR : Point_2 ℝ, findTopLeftCorner pts = some TL ∧
      findBottomRightCorner pts = some BR ∧ TL.y ≥ BR.y ∧ TL.x ≤ BR.x := by
  obtain ⟨TL, BR, hTL, hBR⟩ := corners_exist pts hne
  obtain ⟨hx, hy⟩ := corners_ordered hTL hBR
  exact ⟨TL, BR, hTL, hBR, hy, hx⟩

/-- Witness for C13: three points that are not a rectangle. -/
theorem C13_bounds_invariant_witness :
    ([⟨3, 1⟩, ⟨0, 7⟩, ⟨5, 5⟩] : List (Point_2 ℝ)) ≠ [] ∧
    ∃ TL BR : Point_2 ℝ,
      findTopLeftCorner ([⟨3, 1⟩, ⟨0, 7⟩, ⟨5, 5⟩] : List (Point_2 ℝ)) = some TL ∧
      findBottomRightCorner ([⟨3, 1⟩, ⟨0, 7⟩, ⟨5, 5⟩] : List (Point_2 ℝ)) = some BR ∧
      TL.y ≥ BR.y ∧ TL.x ≤ BR.x :=
  ⟨by simp, C13_bounds_invariant [⟨3, 1⟩, ⟨0, 7⟩, ⟨5, 5⟩] (by simp)⟩

/-- C14 (exact mirror symmetry of the diagonal regimes).  For every non-empty
point list with corners `TL` and `BR`, every step > 0 and every angle `θ` with
`0 < θ < 90`, the calls of `generateHatch` on a fresh engine at angle `θ` and at
angle `180 - θ` return (with the same fuel) lists of the same length, and for
every `i` the `i`-th line at `180 - θ` is the `i`-th line at `θ` with each end
point `(x, y)` replaced by `(TL.x + BR.x - x, y)`, first end point to first and
second to second.  (Exact reals.) -/
theorem C14_exact_mirror_symmetry (pts : List (Point_2 ℝ)) (angel step : ℝ) (hne : pts ≠ [])
    (hs : 0 < step) (h1 : 0 < angel) (h2 : angel < 90) :
    ∃ (TL BR : Point_2 ℝ) (L L2 : List (Line_2 ℝ)),
      findTopLeftCorner pts = some TL ∧ findBottomRightCorner pts = some BR ∧
      (∃ fuel,
        HatchGenerator.generateHatch ⟨Real.pi, Real.tan, Real.cos⟩ fuel
          HatchGenerator.fresh pts angel step = some (L, ⟨L⟩) ∧
        HatchGenerator.generateHatch ⟨Real.pi, Real.tan, Real.cos⟩ fuel
          HatchGenerator.fresh pts (180 - angel) step = some (L2, ⟨L2⟩)) ∧
      L2.length = L.length ∧
      ∀ (i : ℕ) (l : Line_2 ℝ), L[i]? = some l →
        L2[i]? = some ⟨⟨TL.x + BR.x - l.firstPoint.x, l.firstPoint.y⟩,
          ⟨TL.x + BR.x - l.secondPoint.x, l.secondPoint.y⟩⟩ := by
  obtain ⟨TL, BR, hTL, hBR⟩ := corners_exist pts hne
  have hsY := stepYAcute_pos h1 h2 hs
  obtain ⟨n, L, _, hrun, _⟩ := sweepLoop_run
    (acuteClip TL BR (slopeK ⟨Real.pi, Real.tan, Real.cos⟩ angel))
    (TL.y - slopeK ⟨Real.pi, Real.tan, Real.cos⟩ angel * TL.x)
    (BR.y - slopeK ⟨Real.pi, Real.tan, Real.cos⟩ angel * BR.x) _ hsY
  have hA : hatchLines ⟨Real.pi, Real.tan, Real.cos⟩ n [] TL BR angel step = some L := by
    rw [hatchLines_acute _ _ _ _ _ _ h1 h2, hrun]
  refine ⟨TL, BR, L, L.map (mirrorLine TL BR), hTL, hBR, ⟨n, ?_, ?_⟩, by simp, ?_⟩
  · rw [generateHatch_eq _ _ _ _ _ hTL hBR]
    simp [HatchGenerator.fresh, hA]
  · rw [generateHatch_eq _ _ _ _ _ hTL hBR]
    simp only [HatchGenerator.fresh]
    rw [hatchLines_supplement n TL BR step h1 h2, hA]
    rfl
  · intro i l hl
    rw [List.getElem?_map, hl]
    rfl

/-- Witness for C14: the contour of `main`, angle 45, step 1. -/
theorem C14_exact_mirror_symmetry_witness :
    (contoursPoints : List (Point_2 ℝ)) ≠ [] ∧ (0 : ℝ) < 1 ∧ (0 : ℝ) < 45 ∧ (45 : ℝ) < 90 ∧
    ∃ (TL BR : Point_2 ℝ) (L L2 : List (Line_2 ℝ)),
      findTopLeftCorner contoursPoints = some TL ∧
      findBottomRightCorner contoursPoints = some BR ∧
      (∃ fuel,
        HatchGenerator.generateHatch ⟨Real.pi, Real.tan, Real.cos⟩ fuel
          HatchGenerator.fresh contoursPoints 45 1 = some (L, ⟨L⟩) ∧
        HatchGenerator.generateHatch ⟨Real.pi, Real.tan, Real.cos⟩ fuel
          HatchGenerator.fresh contoursPoints (180 - 45) 1 = some (L2, ⟨L2⟩)) ∧
      L2.length = L.length ∧
      ∀ (i : ℕ) (l : Line_2 ℝ), L[i]? = some l →
        L2[i]? = some ⟨⟨TL.x + BR.x - l.firstPoint.x, l.firstPoint.y⟩,
          ⟨TL.x + BR.x - l.secondPoint.x, l.secondPoint.y⟩⟩ :=
  ⟨by simp [contoursPoints], by norm_num, by norm_num, by norm_num,
    C14_exact_mirror_symmetry contoursPoints 45 1 (by simp [contoursPoints]) (by norm_num)
      (by norm_num) (by norm_num)⟩

/-- C15, counterexample (binary64).  The claim carries no proviso on the
arithmetic, and the program computes in `double`.  For the contour of `main`,
angle 45 and step `1.2856486930664499` (the `double` `0x1.492045d2dd945p+0`,
written as a fraction) the program has `k = 0x1.fffffffffffffp-1`, `b0 = 10`,
`stepY = 0x1.d1745d1745d16p+0` and `maxB = -0x1.3ffffffffffffp+3`.  The call
returns exactly 10 lines: after 11 rounded decrements the intercept of the
program is `-10`, which is below `maxB`, and pass 11 takes the `break`.  Yet
`b0 - 11*stepY ≥ maxB`, both in exact arithmetic on these values and when
`b0 - 11*stepY` is itself evaluated in binary64, and `b0 - 12*stepY < maxB`: the
positive integers `i` with `b0 - i*stepY ≥ maxB` are `1..11`, one more than the
number of emitted lines. -/
theorem C15_binary64_counterexample :
    roundDouble (12856486930664499 / 10000000000000000)
      = 5790046975023429 / 4503599627370496 ∧
    generateHatchD libm45 11 [] contoursPoints 45 (5790046975023429 / 4503599627370496)
      = .returned
        [⟨⟨8188362958855449 / 4503599627370496, 10⟩, ⟨0, 4605954164356189 / 562949953421312⟩⟩,
         ⟨⟨8188362958855449 / 2251799813685248, 10⟩, ⟨0, 1791204397249629 / 281474976710656⟩⟩,
         ⟨⟨6141272219141587 / 1125899906842624, 10⟩, ⟨0, 2558863424642327 / 562949953421312⟩⟩,
         ⟨⟨8188362958855449 / 1125899906842624, 10⟩, ⟨0, 6141272219141585 / 2251799813685248⟩⟩,
         ⟨⟨5117726849284655 / 562949953421312, 10⟩, ⟨0, 1023545369856931 / 1125899906842624⟩⟩,
         ⟨⟨10, 2558863424642327 / 281474976710656⟩, ⟨8188362958855445 / 9007199254740992, 0⟩⟩,
         ⟨⟨10, 4094181479427723 / 562949953421312⟩, ⟨6141272219141585 / 2251799813685248, 0⟩⟩,
         ⟨⟨10, 383829513696349 / 70368744177664⟩, ⟨5117726849284655 / 1125899906842624, 0⟩⟩,
         ⟨⟨10, 2047090739713861 / 562949953421312⟩, ⟨7164817588998517 / 1125899906842624, 0⟩⟩,
         ⟨⟨10, 511772684928465 / 281474976710656⟩, ⟨2302977082178095 / 281474976710656, 0⟩⟩] ∧
    libm45.tan (degreesToRadiansD libm45 45) = 9007199254740991 / 9007199254740992 ∧
    dDiv (5790046975023429 / 4503599627370496) (libm45.cos (degreesToRadiansD libm45 45))
      = 4094181479427723 / 2251799813685248 ∧
    dSub 10 (dMul (9007199254740991 / 9007199254740992) 0) = 10 ∧
    dSub 0 (dMul (9007199254740991 / 9007199254740992) 10)
      = -(5629499534213119 / 562949953421312) ∧
    Nat.iterate (fun b => dSub b (4094181479427723 / 2251799813685248)) 11 10 = -10 ∧
    acuteClipD ⟨0, 10⟩ ⟨10, 0⟩ (9007199254740991 / 9007199254740992) (-10) = none ∧
    (-(5629499534213119 / 562949953421312 : ℚ)
      ≤ 10 - 11 * (4094181479427723 / 2251799813685248)) ∧
    (-(5629499534213119 / 562949953421312 : ℚ)
      ≤ dSub 10 (dMul 11 (4094181479427723 / 2251799813685248))) ∧
    ¬ (-(5629499534213119 / 562949953421312 : ℚ)
      ≤ 10 - 12 * (4094181479427723 / 2251799813685248)) := by
  refine ⟨by decide!, by decide!, by decide!, by decide!, by decide!, by decide!, by decide!,
    by decide!, ?_, by decide!, ?_⟩ <;> norm_num

/-- C15, amended (the early stop drops no line, arithmetic read as exact reals).
For every non-empty point list and every step > 0, in the acute and in the
obtuse regime: the loop body takes a `break` exactly when the intercept `b` it
works on is strictly below `maxB` (`maxB = BR.y - k*BR.x` in the acute regime,
`maxB = BR.y - k*TL.x` in the obtuse regime), so every pass with `b ≥ maxB` emits
a line; the call on a fresh engine returns, and the number of emitted lines
equals the number `N` of positive integers `i` with `b0 - i*stepY ≥ maxB` (those
`i` are exactly `1..N`).  Nothing is claimed for the program in `double`. -/
theorem C15_early_stop_drops_no_line (pts : List (Point_2 ℝ)) (angel step : ℝ)
    (hne : pts ≠ []) (hs : 0 < step) :
    ((0 < angel ∧ angel < 90) →
      ∃ (TL BR : Point_2 ℝ) (N : ℕ) (L : List (Line_2 ℝ)),
        findTopLeftCorner pts = some TL ∧ findBottomRightCorner pts = some BR ∧
        (∀ b : ℝ, acuteClip TL BR (slopeK ⟨Real.pi, Real.tan, Real.cos⟩ angel) b = none ↔
          b < BR.y - slopeK ⟨Real.pi, Real.tan, Real.cos⟩ angel * BR.x) ∧
        (∀ i : ℕ, 0 < i →
          (BR.y - slopeK ⟨Real.pi, Real.tan, Real.cos⟩ angel * BR.x
              ≤ TL.y - slopeK ⟨Real.pi, Real.tan, Real.cos⟩ angel * TL.x
                - i * stepYAcute ⟨Real.pi, Real.tan, Real.cos⟩ angel step
            ↔ i ≤ N)) ∧
        (∃ fuel, HatchGenerator.generateHatch ⟨Real.pi, Real.tan, Real.cos⟩ fuel
          HatchGenerator.fresh pts angel step = some (L, ⟨L⟩)) ∧
        L.length = N) ∧
    ((90 < angel ∧ angel < 180) →
      ∃ (TL BR : Point_2 ℝ) (N : ℕ) (L : List (Line_2 ℝ)),
        findTopLeftCorner pts = some TL ∧ findBottomRightCorner pts = some BR ∧
        (∀ b : ℝ, obtuseClip TL BR (slopeK ⟨Real.pi, Real.tan, Real.cos⟩ angel) b = none ↔
          b < BR.y - slopeK ⟨Real.pi, Real.tan, Real.cos⟩ angel * TL.x) ∧
        (∀ i : ℕ, 0 < i →
          (BR.y - slopeK ⟨Real.pi, Real.tan, Real.cos⟩ angel * TL.x
              ≤ TL.y - slopeK ⟨Real.pi, Real.tan, Real.cos⟩ angel * BR.x
                - i * stepYObtuse ⟨Real.pi, Real.tan, Real.cos⟩ angel step
            ↔ i ≤ N)) ∧
        (∃ fuel, HatchGenerator.generateHatch ⟨Real.pi, Real.tan, Real.cos⟩ fuel
          HatchGenerator.fresh pts angel step = some (L, ⟨L⟩)) ∧
        L.length = N) := by
  obtain ⟨TL, BR, hTL, hBR⟩ := corners_exist pts hne
  obtain ⟨hx, hy⟩ := corners_ordered hTL hBR
  constructor
  · rintro ⟨h1, h2⟩
    have hsY := stepYAcute_pos h1 h2 hs
    have hk := (acute_trig h1 h2).1
    have hclip := acuteClip_none_iff TL BR hk hy
    obtain ⟨N, hN⟩ := exists_count_ge
      (TL.y - slopeK ⟨Real.pi, Real.tan, Real.cos⟩ angel * TL.x)
      (BR.y - slopeK ⟨Real.pi, Real.tan, Real.cos⟩ angel * BR.x) _ hsY
    obtain ⟨fuel, L, hrun, hlen, _⟩ := sweepLoop_count _ _ _ _ hsY hclip N hN
    refine ⟨TL, BR, N, L, hTL, hBR, hclip, hN, ⟨fuel, ?_⟩, hlen⟩
    rw [generateHatch_eq _ _ _ _ _ hTL hBR, hatchLines_acute _ _ _ _ _ _ h1 h2]
    simp [HatchGenerator.fresh, hrun]
  · rintro ⟨h1, h2⟩
    have hsY := stepYObtuse_pos h1 h2 hs
    have hk := (obtuse_trig h1 h2).1
    have hclip := obtuseClip_none_iff TL BR hk hy
    obtain ⟨N, hN⟩ := exists_count_ge
      (TL.y - slopeK ⟨Real.pi, Real.tan, Real.cos⟩ angel * BR.x)
      (BR.y - slopeK ⟨Real.pi, Real.tan, Real.cos⟩ angel * TL.x) _ hsY
    obtain ⟨fuel, L, hrun, hlen, _⟩ := sweepLoop_count _ _ _ _ hsY hclip N hN
    refine ⟨TL, BR, N, L, hTL, hBR, hclip, hN, ⟨fuel, ?_⟩, hlen⟩
    rw [generateHatch_eq _ _ _ _ _ hTL hBR, hatchLines_obtuse _ _ _ _ _ _ h1 h2]
    simp [HatchGenerator.fresh, hrun]

/-- Witness for C15: the contour of `main` with step 1, at angle 45 (acute) and
at angle 135 (obtuse). -/
theorem C15_early_stop_drops_no_line_witness :
    (contoursPoints : List (Point_2 ℝ)) ≠ [] ∧ (0 : ℝ) < 1 ∧
    ((0 : ℝ) < 45 ∧ (45 : ℝ) < 90) ∧ ((90 : ℝ) < 135 ∧ (135 : ℝ) < 180) ∧
    (∃ (TL BR : Point_2 ℝ) (N : ℕ) (L : List (Line_2 ℝ)),
        findTopLeftCorner contoursPoints = some TL ∧ findBottomRightCorner contoursPoints = some BR ∧
        (∀ b : ℝ, acuteClip TL BR (slopeK ⟨Real.pi, Real.tan, Real.cos⟩ 45) b = none ↔
          b < BR.y - slopeK ⟨Real.pi, Real.tan, Real.cos⟩ 45 * BR.x) ∧
        (∀ i : ℕ, 0 < i →
          (BR.y - slopeK ⟨Real.pi, Real.tan, Real.cos⟩ 45 * BR.x
              ≤ TL.y - slopeK ⟨Real.pi, Real.tan, Real.cos⟩ 45 * TL.x
                - i * stepYAcute ⟨Real.pi, Real.tan, Real.cos⟩ 45 1
            ↔ i ≤ N)) ∧
        (∃ fuel, HatchGenerator.generateHatch ⟨Real.pi, Real.tan, Real.cos⟩ fuel
          HatchGenerator.fresh contoursPoints 45 1 = some (L, ⟨L⟩)) ∧
        L.length = N) ∧
    (∃ (TL BR : Point_2 ℝ) (N : ℕ) (L : List (Line_2 ℝ)),
        findTopLeftCorner contoursPoints = some TL ∧ findBottomRightCorner contoursPoints = some BR ∧
        (∀ b : ℝ, obtuseClip TL BR (slopeK ⟨Real.pi, Real.tan, Real.cos⟩ 135) b = none ↔
          b < BR.y - slopeK ⟨Real.pi, Real.tan, Real.cos⟩ 135 * TL.x) ∧
        (∀ i : ℕ, 0 < i →
          (BR.y - slopeK ⟨Real.pi, Real.tan, Real.cos⟩ 135 * TL.x
              ≤ TL.y - slopeK ⟨Real.pi, Real.tan, Real.cos⟩ 135 * BR.x
                - i * stepYObtuse ⟨Real.pi, Real.tan, Real.cos⟩ 135 1
            ↔ i ≤ N)) ∧
        (∃ fuel, HatchGenerator.generateHatch ⟨Real.pi, Real.tan, Real.cos⟩ fuel
          HatchGenerator.fresh contoursPoints 135 1 = some (L, ⟨L⟩)) ∧
        L.length = N) :=
  ⟨by simp [contoursPoints], by norm_num, ⟨by norm_num, by norm_num⟩,
    ⟨by norm_num, by norm_num⟩,
    (C15_early_stop_drops_no_line contoursPoints 45 1 (by simp [contoursPoints])
      (by norm_num)).1 ⟨by norm_num, by norm_num⟩,
    (C15_early_stop_drops_no_line contoursPoints 135 1 (by simp [contoursPoints])
      (by norm_num)).2 ⟨by norm_num, by norm_num⟩⟩

/-- C16 (single-point input).  For a point list with exactly one point `p` both
`findTopLeftCorner` and `findBottomRightCorner` return `p`, and for every step
> 0 and every angle (in particular every angle in `[0, 180]`) the call of
`generateHatch` on a fresh engine returns the empty list with fuel 0, that is
without a single pass of a loop body: no regime loops forever. -/
theorem C16_single_point (T : CMath ℝ) (p : Point_2 ℝ) (angel step : ℝ) (hs : 0 < step) :
    findTopLeftCorner [p] = some p ∧ findBottomRightCorner [p] = some p ∧
    HatchGenerator.generateHatch T 0 HatchGenerator.fresh [p] angel step
      = some ([], ⟨[]⟩) := by
  refine ⟨rfl, rfl, ?_⟩
  rw [generateHatch_eq T 0 HatchGenerator.fresh angel step
    (show findTopLeftCorner [p] = some p from rfl)
    (show findBottomRightCorner [p] = some p from rfl)]
  have h1 : ¬ (p.x + step < p.x) := by linarith
  have h2 : ¬ (p.y + step < p.y) := by linarith
  unfold hatchLines
  split_ifs <;> simp [vertLoop, horizLoop, sweepLoop, HatchGenerator.fresh, h1, h2]

/-- Witness for C16: the single point `(3, 4)`, angle 45, step 1. -/
theorem C16_single_point_witness :
    (0 : ℝ) < 1 ∧
    findTopLeftCorner ([⟨3, 4⟩] : List (Point_2 ℝ)) = some ⟨3, 4⟩ ∧
    findBottomRightCorner ([⟨3, 4⟩] : List (Point_2 ℝ)) = some ⟨3, 4⟩ ∧
    HatchGenerator.generateHatch (⟨Real.pi, Real.tan, Real.cos⟩ : CMath ℝ) 0
      HatchGenerator.fresh [⟨3, 4⟩] 45 1 = some ([], ⟨[]⟩) :=
  ⟨by norm_num, C16_single_point ⟨Real.pi, Real.tan, Real.cos⟩ ⟨3, 4⟩ 45 1 (by norm_num)⟩

/-- C17 (corner recovery when the bottom-left corner comes first).  For every
axis-aligned rectangle `x0 < x1`, `y0 < y1` whose corners are listed with the
bottom-left corner `(x0, y0)` first and the other three in any order,
`findTopLeftCorner` returns `(x0, y1)` and `findBottomRightCorner` returns
`(x1, y0)`; for the order `(0,0),(10,0),(10,10),(0,10)` used by `main` these are
`(0,10)` and `(10,0)`. -/
theorem C17_bottom_left_first (x0 x1 y0 y1 : ℝ) (hx : x0 < x1) (hy : y0 < y1)
    (rest : List (Point_2 ℝ))
    (hperm : rest.Perm [⟨x1, y0⟩, ⟨x1, y1⟩, ⟨x0, y1⟩]) :
    (findTopLeftCorner (⟨x0, y0⟩ :: rest) = some ⟨x0, y1⟩ ∧
      findBottomRightCorner (⟨x0, y0⟩ :: rest) = some ⟨x1, y0⟩) ∧
    (findTopLeftCorner (contoursPoints : List (Point_2 ℝ)) = some ⟨0, 10⟩ ∧
      findBottomRightCorner (contoursPoints : List (Point_2 ℝ)) = some ⟨10, 0⟩) := by
  have hall : ∀ q ∈ rest, q = ⟨x1, y0⟩ ∨ q = ⟨x1, y1⟩ ∨ q = ⟨x0, y1⟩ := by
    intro q hq
    simpa using (hperm.mem_iff).mp hq
  have hTL : (⟨x0, y1⟩ : Point_2 ℝ) ∈ rest := (hperm.mem_iff).mpr (by simp)
  have hBR : (⟨x1, y0⟩ : Point_2 ℝ) ∈ rest := (hperm.mem_iff).mpr (by simp)
  refine ⟨⟨?_, ?_⟩, main_corners⟩
  · simp only [findTopLeftCorner]
    rw [(foldl_topLeft_rect hx hy rest hall).2 hTL]
  · simp only [findBottomRightCorner]
    rw [(foldl_bottomRight_rect hx hy rest hall).2 hBR]

/-- Witness for C17: the square of `main` listed as bottom-left, top-right,
bottom-right, top-left. -/
theorem C17_bottom_left_first_witness :
    (0 : ℝ) < 10 ∧
    findTopLeftCorner ([⟨0, 0⟩, ⟨10, 10⟩, ⟨10, 0⟩, ⟨0, 10⟩] : List (Point_2 ℝ))
      = some ⟨0, 10⟩ ∧
    findBottomRightCorner ([⟨0, 0⟩, ⟨10, 10⟩, ⟨10, 0⟩, ⟨0, 10⟩] : List (Point_2 ℝ))
      = some ⟨10, 0⟩ :=
  ⟨by norm_num,
    (C17_bottom_left_first 0 10 0 10 (by norm_num) (by norm_num)
      [⟨10, 10⟩, ⟨10, 0⟩, ⟨0, 10⟩] (List.Perm.swap _ _ _)).1⟩

/-- C18 (a zero-length line can be emitted at the corner).  For the contour of
`main`, angle 45 and step `sqrt 2` (so `k = 1` and `stepY = 2`), `generateHatch`
on a fresh engine returns 10 lines, the last of which is `((10,0),(10,0))`, the
bottom-right corner twice.  In general, for every non-empty point list and
step > 0: if `b0 - i*stepY = maxB` for a positive integer `i`, the call returns
exactly `i` lines and the last one is the degenerate line at the corner the
sweep ends in: `(BR, BR)` in the acute regime, and the bottom-left corner
`(TL.x, BR.y)` twice in the obtuse regime.  (Exact reals.) -/
theorem C18_zero_length_segment :
    (slopeK ⟨Real.pi, Real.tan, Real.cos⟩ 45 = 1 ∧
      stepYAcute ⟨Real.pi, Real.tan, Real.cos⟩ 45 (Real.sqrt 2) = 2 ∧
      HatchGenerator.generateHatch ⟨Real.pi, Real.tan, Real.cos⟩ 10
          HatchGenerator.fresh contoursPoints 45 (Real.sqrt 2)
        = some
          ([⟨⟨2, 10⟩, ⟨0, 8⟩⟩, ⟨⟨4, 10⟩, ⟨0, 6⟩⟩, ⟨⟨6, 10⟩, ⟨0, 4⟩⟩, ⟨⟨8, 10⟩, ⟨0, 2⟩⟩,
            ⟨⟨10, 10⟩, ⟨0, 0⟩⟩, ⟨⟨10, 8⟩, ⟨2, 0⟩⟩, ⟨⟨10, 6⟩, ⟨4, 0⟩⟩, ⟨⟨10, 4⟩, ⟨6, 0⟩⟩,
            ⟨⟨10, 2⟩, ⟨8, 0⟩⟩, ⟨⟨10, 0⟩, ⟨10, 0⟩⟩],
           ⟨[⟨⟨2, 10⟩, ⟨0, 8⟩⟩, ⟨⟨4, 10⟩, ⟨0, 6⟩⟩, ⟨⟨6, 10⟩, ⟨0, 4⟩⟩, ⟨⟨8, 10⟩, ⟨0, 2⟩⟩,
            ⟨⟨10, 10⟩, ⟨0, 0⟩⟩, ⟨⟨10, 8⟩, ⟨2, 0⟩⟩, ⟨⟨10, 6⟩, ⟨4, 0⟩⟩, ⟨⟨10, 4⟩, ⟨6, 0⟩⟩,
            ⟨⟨10, 2⟩, ⟨8, 0⟩⟩, ⟨⟨10, 0⟩, ⟨10, 0⟩⟩]⟩)) ∧
    (∀ (pts : List (Point_2 ℝ)) (angel step : ℝ) (i : ℕ), pts ≠ [] → 0 < step → 0 < i →
      ((0 < angel ∧ angel < 90) →
        ∀ TL BR : Point_2 ℝ, findTopLeftCorner pts = some TL →
          findBottomRightCorner pts = some BR →
          TL.y - slopeK ⟨Real.pi, Real.tan, Real.cos⟩ angel * TL.x
              - i * stepYAcute ⟨Real.pi, Real.tan, Real.cos⟩ angel step
            = BR.y - slopeK ⟨Real.pi, Real.tan, Real.cos⟩ angel * BR.x →
          ∃ L : List (Line_2 ℝ),
            (∃ fuel, HatchGenerator.generateHatch ⟨Real.pi, Real.tan, Real.cos⟩ fuel
              HatchGenerator.fresh pts angel step = some (L, ⟨L⟩)) ∧
            L.length = i ∧ L[i - 1]? = some ⟨BR, BR⟩) ∧
      ((90 < angel ∧ angel < 180) →
        ∀ TL BR : Point_2 ℝ, findTopLeftCorner pts = some TL →
          findBottomRightCorner pts = some BR →
          TL.y - slopeK ⟨Real.pi, Real.tan, Real.cos⟩ angel * BR.x
              - i * stepYObtuse ⟨Real.pi, Real.tan, Real.cos⟩ angel step
            = BR.y - slopeK ⟨Real.pi, Real.tan, Real.cos⟩ angel * TL.x →
          ∃ L : List (Line_2 ℝ),
            (∃ fuel, HatchGenerator.generateHatch ⟨Real.pi, Real.tan, Real.cos⟩ fuel
              HatchGenerator.fresh pts angel step = some (L, ⟨L⟩)) ∧
            L.length = i ∧ L[i - 1]? = some ⟨⟨TL.x, BR.y⟩, ⟨TL.x, BR.y⟩⟩)) := by
  have hstep : stepYAcute ⟨Real.pi, Real.tan, Real.cos⟩ 45 (Real.sqrt 2) = 2 := by
    rw [stepYAcute_45]
    exact Real.mul_self_sqrt (by norm_num)
  refine ⟨⟨slopeK_45, hstep, ?_⟩, ?_⟩
  · have key := sweepLoop_closed (acuteClip (⟨0, 10⟩ : Point_2 ℝ) ⟨10, 0⟩ 1) 2
      ((0 : ℝ) - 1 * 10) 10 10 ((10 : ℝ) - 1 * 0) []
      (fun i : ℕ =>
        if i + 1 ≤ 5 then
          (⟨⟨2 * (i + 1 : ℕ), 10⟩, ⟨0, 10 - 2 * (i + 1 : ℕ)⟩⟩ : Line_2 ℝ)
        else ⟨⟨10, 20 - 2 * (i + 1 : ℕ)⟩, ⟨2 * (i + 1 : ℕ) - 10, 0⟩⟩)
      (fun i hi => by
        have hi1 : (i : ℝ) ≤ 9 := by exact_mod_cast Nat.le_of_lt_succ hi
        have e : (10 : ℝ) - 1 * 0 - ((i + 1 : ℕ) : ℝ) * 2
            = 10 - 2 * ((i + 1 : ℕ) : ℝ) := by ring
        refine ⟨by linarith, ?_⟩
        rw [e]
        by_cases h5 : i + 1 ≤ 5
        · have h5r : ((i + 1 : ℕ) : ℝ) ≤ 5 := by exact_mod_cast h5
          have h1r : (1 : ℝ) ≤ ((i + 1 : ℕ) : ℝ) := by exact_mod_cast Nat.succ_pos i
          simp only [if_pos h5]
          exact (acuteClip_main _).1 (by linarith) (by linarith)
        · have h6r : (6 : ℝ) ≤ ((i + 1 : ℕ) : ℝ) := by exact_mod_cast (by omega : 6 ≤ i + 1)
          have h10r : ((i + 1 : ℕ) : ℝ) ≤ 10 := by exact_mod_cast (by omega : i + 1 ≤ 10)
          simp only [if_neg h5]
          exact (acuteClip_main _).2.1 (by linarith) (by linarith))
      (Or.inl ⟨by norm_num, le_refl 10⟩)
    rw [generateHatch_eq _ _ _ _ _ main_corners.1 main_corners.2,
      hatchLines_acute _ _ _ _ _ _ (by norm_num) (by norm_num), slopeK_45, hstep]
    simp only [HatchGenerator.fresh]
    rw [key]
    norm_num [List.range_succ]
  · intro pts angel step i hne hs hi
    constructor
    · rintro ⟨h1, h2⟩ TL BR hTL hBR hit
      obtain ⟨hx, hy⟩ := corners_ordered hTL hBR
      have hsY := stepYAcute_pos h1 h2 hs
      have hk := (acute_trig h1 h2).1
      obtain ⟨fuel, L, hrun, hlen, hlast⟩ := sweepLoop_hit _ _ _ _ hsY
        (acuteClip_none_iff TL BR hk hy) i hi hit
      refine ⟨L, ⟨fuel, ?_⟩, hlen, ?_⟩
      · rw [generateHatch_eq _ _ _ _ _ hTL hBR, hatchLines_acute _ _ _ _ _ _ h1 h2]
        simp [HatchGenerator.fresh, hrun]
      · rw [hlast, acuteClip_corner hk hx hy]
    · rintro ⟨h1, h2⟩ TL BR hTL hBR hit
      obtain ⟨hx, hy⟩ := corners_ordered hTL hBR
      have hsY := stepYObtuse_pos h1 h2 hs
      have hk := (obtuse_trig h1 h2).1
      obtain ⟨fuel, L, hrun, hlen, hlast⟩ := sweepLoop_hit _ _ _ _ hsY
        (obtuseClip_none_iff TL BR hk hy) i hi hit
      refine ⟨L, ⟨fuel, ?_⟩, hlen, ?_⟩
      · rw [generateHatch_eq _ _ _ _ _ hTL hBR, hatchLines_obtuse _ _ _ _ _ _ h1 h2]
        simp [HatchGenerator.fresh, hrun]
      · rw [hlast, obtuseClip_corner hk hx hy]

/-- Witness for C18: the general statement at the contour of `main`, angle 45,
step `sqrt 2`, `i = 10`. -/
theorem C18_zero_length_segment_witness :
    (contoursPoints : List (Point_2 ℝ)) ≠ [] ∧ 0 < Real.sqrt 2 ∧ 0 < 10 ∧
    ((0 : ℝ) < 45 ∧ (45 : ℝ) < 90) ∧
    ∃ L : List (Line_2 ℝ),
      (∃ fuel, HatchGenerator.generateHatch ⟨Real.pi, Real.tan, Real.cos⟩ fuel
        HatchGenerator.fresh contoursPoints 45 (Real.sqrt 2) = some (L, ⟨L⟩)) ∧
      L.length = 10 ∧ L[10 - 1]? = some ⟨⟨10, 0⟩, ⟨10, 0⟩⟩ :=
  ⟨by simp [contoursPoints], Real.sqrt_pos.mpr (by norm_num), by norm_num,
    ⟨by norm_num, by norm_num⟩,
    (C18_zero_length_segment.2 contoursPoints 45 (Real.sqrt 2) 10 (by simp [contoursPoints])
      (Real.sqrt_pos.mpr (by norm_num)) (by norm_num)).1 ⟨by norm_num, by norm_num⟩
      ⟨0, 10⟩ ⟨10, 0⟩ main_corners.1 main_corners.2
      (by
        have h2 : Real.sqrt 2 * Real.sqrt 2 = 2 := Real.mul_self_sqrt (by norm_num)
        rw [slopeK_45, stepYAcute_45, h2]
        norm_num)⟩

/-- C19 (the divisions in the diagonal regimes are well defined).  With
`degreesToRadians(d) = d*pi/180` over the reals: for `0 < angle < 90` the slope
`k = tan(angle)` and `cos(angle)` are positive; for `90 < angle < 180` the slope
is negative and `cos(180 - angle)` is positive; hence in both regimes the
divisor `k` is not zero and, for step > 0, `stepY` is strictly positive. -/
theorem C19_divisions_well_defined (angel step : ℝ) (hs : 0 < step) :
    ((0 < angel ∧ angel < 90) →
      0 < slopeK ⟨Real.pi, Real.tan, Real.cos⟩ angel ∧
      0 < Real.cos (degreesToRadians ⟨Real.pi, Real.tan, Real.cos⟩ angel) ∧
      slopeK ⟨Real.pi, Real.tan, Real.cos⟩ angel ≠ 0 ∧
      0 < stepYAcute ⟨Real.pi, Real.tan, Real.cos⟩ angel step) ∧
    ((90 < angel ∧ angel < 180) →
      slopeK ⟨Real.pi, Real.tan, Real.cos⟩ angel < 0 ∧
      0 < Real.cos (degreesToRadians ⟨Real.pi, Real.tan, Real.cos⟩ (180 - angel)) ∧
      slopeK ⟨Real.pi, Real.tan, Real.cos⟩ angel ≠ 0 ∧
      0 < stepYObtuse ⟨Real.pi, Real.tan, Real.cos⟩ angel step) := by
  constructor
  · rintro ⟨h1, h2⟩
    obtain ⟨hk, hc⟩ := acute_trig h1 h2
    exact ⟨hk, hc, ne_of_gt hk, stepYAcute_pos h1 h2 hs⟩
  · rintro ⟨h1, h2⟩
    obtain ⟨hk, hc⟩ := obtuse_trig h1 h2
    exact ⟨hk, hc, ne_of_lt hk, stepYObtuse_pos h1 h2 hs⟩

/-- Witness for C19: angle 45 (acute) and angle 135 (obtuse), step 1. -/
theorem C19_divisions_well_defined_witness :
    (0 : ℝ) < 1 ∧ ((0 : ℝ) < 45 ∧ (45 : ℝ) < 90) ∧ ((90 : ℝ) < 135 ∧ (135 : ℝ) < 180) ∧
    (0 < slopeK ⟨Real.pi, Real.tan, Real.cos⟩ 45 ∧
      0 < Real.cos (degreesToRadians ⟨Real.pi, Real.tan, Real.cos⟩ 45) ∧
      slopeK ⟨Real.pi, Real.tan, Real.cos⟩ 45 ≠ 0 ∧
      0 < stepYAcute ⟨Real.pi, Real.tan, Real.cos⟩ 45 1) ∧
    (slopeK ⟨Real.pi, Real.tan, Real.cos⟩ 135 < 0 ∧
      0 < Real.cos (degreesToRadians ⟨Real.pi, Real.tan, Real.cos⟩ (180 - 135)) ∧
      slopeK ⟨Real.pi, Real.tan, Real.cos⟩ 135 ≠ 0 ∧
      0 < stepYObtuse ⟨Real.pi, Real.tan, Real.cos⟩ 135 1) :=
  ⟨by norm_num, ⟨by norm_num, by norm_num⟩, ⟨by norm_num, by norm_num⟩,
    (C19_divisions_well_defined 45 1 (by norm_num)).1 ⟨by norm_num, by norm_num⟩,
    (C19_divisions_well_defined 135 1 (by norm_num)).2 ⟨by norm_num, by norm_num⟩⟩

end Claims

end Hatch
